import Mathlib

/-!
Verification development for the topic-deduplication engine of an
Obsidian-vault knowledge store (vault manager + AI semantic matcher).

The TypeScript source is shallowly embedded:
* JS strings are Lean `String`s (code-point based; UTF-16 surrogate-pair
  edge cases of exotic non-BMP input are not modelled).
* JS numbers are modelled as exact rationals represented by an
  integer numerator and a natural denominator (`Frac`); every comparison
  the code performs on numbers is embedded as the corresponding
  cross-multiplication test.  Float rounding is not modelled.
* Filesystem reads, the wall clock, random temp names and the external
  AI subprocess are passed in explicitly as oracle parameters; file
  mutations are returned as explicit effect values instead of being
  performed.
-/

/-! ## Exact fractions standing in for JS numbers -/

/-- Exact rational value of a JS number: numerator over denominator.
All values built by the model have a non-zero denominator. -/
structure Frac where
  num : Int
  den : Nat
  deriving DecidableEq, Repr

/-- Embedded numeric comparison a <= b (cross multiplication). -/
def Frac.fle (a b : Frac) : Bool := a.num * b.den ≤ b.num * a.den

/-- Embedded numeric comparison a < b (cross multiplication). -/
def Frac.flt (a b : Frac) : Bool := a.num * b.den < b.num * a.den

/-- Embedded numeric equality a === b (cross multiplication). -/
def Frac.feq (a b : Frac) : Bool := a.num * b.den = b.num * a.den

/-- The mathematical value of an embedded JS number. -/
def Frac.toRat (a : Frac) : ℚ := (a.num : ℚ) / (a.den : ℚ)

/-- The JS number 0. -/
def Frac.zero : Frac := ⟨0, 1⟩

/-- The JS number 1. -/
def Frac.one : Frac := ⟨1, 1⟩

/-- Math.min(1, t) from the threshold-clamping code. -/
def jsMin1 (t : Frac) : Frac := if t.fle Frac.one then t else Frac.one

/-- Math.max(0, t) from the threshold-clamping code. -/
def jsMax0 (t : Frac) : Frac := if t.fle Frac.zero then Frac.zero else t

/-- threshold = Math.max(0, Math.min(1, threshold)). -/
def clampThreshold (t : Frac) : Frac := jsMax0 (jsMin1 t)

/-! ## JS string primitives -/

/-- Characters matched by the JS regex class backslash-s (whitespace),
restricted to the code points of the WhiteSpace / LineTerminator
productions. -/
def jsWhitespaceChar (c : Char) : Bool :=
  let n := c.toNat
  n = 32 || n = 9 || n = 10 || n = 11 || n = 12 || n = 13 || n = 160 ||
  n = 5760 || (8192 ≤ n && n ≤ 8202) || n = 8232 || n = 8233 ||
  n = 8239 || n = 8287 || n = 12288 || n = 65279

/-- String.prototype.trim on a character list. -/
def jsTrimList (l : List Char) : List Char :=
  ((l.dropWhile jsWhitespaceChar).reverse.dropWhile jsWhitespaceChar).reverse

/-- String.prototype.trim. -/
def jsTrim (s : String) : String := String.mk (jsTrimList s.data)

/-- String.prototype.toLowerCase (ASCII case fold; the only characters
that survive slug filtering are ASCII). -/
def jsToLower (s : String) : String := String.mk (s.data.map Char.toLower)

/-- Split a character list at every occurrence of a separator character,
as String.prototype.split with a single-char separator does. -/
def splitOnChar (sep : Char) : List Char → List (List Char)
  | [] => [[]]
  | c :: cs =>
    match splitOnChar sep cs with
    | [] => [[]]
    | w :: ws => if c = sep then [] :: w :: ws else (c :: w) :: ws

/-- String.prototype.split with a single-character separator. -/
def jsSplit (sep : Char) (s : String) : List String :=
  (splitOnChar sep s.data).map String.mk

/-- JS string < on character lists (code-point lexicographic). -/
def jsStrLtAux : List Char → List Char → Bool
  | [], [] => false
  | [], _ :: _ => true
  | _ :: _, [] => false
  | a :: as, b :: bs =>
    if a < b then true else if b < a then false else jsStrLtAux as bs

/-- JS string comparison a < b. -/
def jsStrLt (a b : String) : Bool := jsStrLtAux a.data b.data

/-- String.prototype.endsWith. -/
def jsEndsWith (s suffix : String) : Bool := suffix.data.isSuffixOf s.data

/-- substring(0, n) / truncation to the first n characters. -/
def strTake (n : Nat) (s : String) : String := String.mk (s.data.take n)

/-- Drop the last n characters. -/
def strDropRight (n : Nat) (s : String) : String :=
  String.mk (s.data.take (s.data.length - n))

/-- file.replace(/\.md$/, "") — strip one trailing ".md". -/
def stripMdSuffix (f : String) : String :=
  if jsEndsWith f ".md" then strDropRight 3 f else f

/-- path.join for the vault layout (no normalization is ever needed for
the paths the engine builds). -/
def pjoin (a b : String) : String := a ++ "/" ++ b

/-- The suffix of a character list after its last slash. -/
def afterLastSlash (l : List Char) : List Char :=
  (l.reverse.takeWhile (fun c => c ≠ '/')).reverse

/-- path.basename(p). -/
def jsBasename (p : String) : String := String.mk (afterLastSlash p.data)

/-- path.basename(p, ext): additionally strips the extension when the
basename ends with it and is not the extension itself. -/
def jsBasenameExt (p ext : String) : String :=
  let b := jsBasename p
  if jsEndsWith b ext && b ≠ ext then strDropRight ext.length b else b

/-- path.dirname(p). -/
def jsDirname (p : String) : String :=
  let rev := p.data.reverse.dropWhile (fun c => c ≠ '/')
  if rev.isEmpty then "." else String.mk rev.tail.reverse

/-- Decimal digits of a natural number, fuel-based so that the kernel
can evaluate it. -/
def natDigitsAux : Nat → Nat → List Char
  | 0, _ => []
  | fuel + 1, n =>
    if n = 0 then []
    else natDigitsAux fuel (n / 10) ++ [Char.ofNat (48 + n % 10)]

/-- Decimal string of a natural number (JS Number.prototype.toString for
non-negative integers). -/
def natToStr (n : Nat) : String :=
  if n = 0 then "0" else String.mk (natDigitsAux (n + 1) n)

/-- Decimal string of an integer. -/
def intToStr (i : Int) : String :=
  if i < 0 then "-" ++ natToStr i.natAbs else natToStr i.natAbs

/-! ## Slug normalizer (slugifyProjectName) -/

/-- Replace every maximal run of characters satisfying p by a single
hyphen, as the source's whitespace-run, dot-run and hyphen-run
replacement regexes do.  The flag records whether the previous character
belonged to a run. -/
def replaceRunsAux (p : Char → Bool) : Bool → List Char → List Char
  | _, [] => []
  | inRun, c :: cs =>
    if p c then
      if inRun then replaceRunsAux p true cs
      else '-' :: replaceRunsAux p true cs
    else c :: replaceRunsAux p false cs

/-- Replace every maximal run of characters satisfying p by one hyphen. -/
def replaceRuns (p : Char → Bool) (l : List Char) : List Char :=
  replaceRunsAux p false l

/-- Characters kept by replace(/[^a-z0-9_-]/g, ""). -/
def slugAllowedChar (c : Char) : Bool :=
  let n := c.toNat
  (97 ≤ n && n ≤ 122) || (48 ≤ n && n ≤ 57) || n = 95 || n = 45

/-- Drop one leading character satisfying p. -/
def dropLeadIf (p : Char → Bool) (l : List Char) : List Char :=
  match l with
  | [] => []
  | c :: t => if p c then t else l

/-- replace(/^-|-$/g, "") — remove one leading and one trailing hyphen. -/
def trimEdgeHyphens (l : List Char) : List Char :=
  (dropLeadIf (fun c => c == '-') ((dropLeadIf (fun c => c == '-') l).reverse)).reverse

/-- Character-list core of slugifyProjectName, steps in source order:
lowercase; whitespace runs to hyphen; dot runs to hyphen; strip
characters outside [a-z0-9_-]; collapse hyphen runs; trim edge
hyphens. -/
def slugifyChars (l : List Char) : List Char :=
  trimEdgeHyphens
    (replaceRuns (fun c => c == '-')
      ((replaceRuns (fun c => c == '.')
        (replaceRuns jsWhitespaceChar (l.map Char.toLower))).filter slugAllowedChar))

/-- Normalize a project name / title to a filesystem-safe slug. -/
def slugifyProjectName (name : String) : String :=
  String.mk (slugifyChars name.data)

/-! ## Stopword tokenizer and similarity scorer -/

/-- Stopword set from the source, verbatim. -/
def STOPWORDS : List String :=
  ["for", "the", "in", "a", "an", "to", "of", "and", "is", "are", "with", "on", "at",
   "by", "from", "as", "it", "that", "this", "be", "was", "were", "been", "being",
   "have", "has", "had", "do", "does", "did", "will", "would", "could", "should",
   "may", "might", "must", "can", "how", "what", "when", "where", "why", "which",
   "who", "whom"]

/-- Extract significant words from a slug: split on hyphens, drop empty
words and stopwords.  Empty / whitespace-only input yields no words. -/
def extractSignificantWords (slug : String) : List String :=
  if slug = "" || jsTrim slug = "" then []
  else (jsSplit '-' (jsToLower slug)).filter
    (fun w => w.data.length != 0 && !(STOPWORDS.contains w))

/-- Jaccard similarity of two word lists viewed as sets:
|intersection| / |union|, with 0 when both lists are empty. -/
def computeJaccardSimilarity (words1 words2 : List String) : Frac :=
  if words1.length = 0 && words2.length = 0 then Frac.zero
  else if (words1.toFinset ∪ words2.toFinset).card = 0 then Frac.zero
  else ⟨(words1.toFinset ∩ words2.toFinset).card, (words1.toFinset ∪ words2.toFinset).card⟩

/-- Score of one stored alias against the input words: the alias is
slugified, truncated to 50 chars, tokenized and Jaccard-scored. -/
def aliasScoreOf (inputWords : List String) (aliasTitle : String) : Frac :=
  computeJaccardSimilarity inputWords
    (extractSignificantWords (strTake 50 (slugifyProjectName aliasTitle)))

/-- Maximum Jaccard score of the input words against the file slug and
against each stored alias. -/
def computeJaccardWithAliases
    (inputWords : List String) (fileSlug : String) (aliases : List String) : Frac :=
  aliases.foldl
    (fun maxScore aliasTitle =>
      if maxScore.flt (aliasScoreOf inputWords aliasTitle) then
        aliasScoreOf inputWords aliasTitle
      else maxScore)
    (computeJaccardSimilarity inputWords (extractSignificantWords fileSlug))

/-! ## Tiered matcher -/

/-- Category names of the project structure. -/
def CATEGORIES : List String :=
  ["research", "decisions", "errors", "patterns", "knowledge", "sessions", "files"]

/-- Lower bound of the gray zone for alias checking. -/
def GRAY_ZONE_MIN : Frac := ⟨3, 10⟩

/-- Upper bound of the gray zone for alias checking. -/
def GRAY_ZONE_MAX : Frac := ⟨59, 100⟩

/-- Result of the similar-topic search (also used for the gray-zone
candidate records, which carry the same three fields). -/
structure SimilarTopicMatch where
  path : String
  category : String
  score : Frac
  deriving DecidableEq, Repr

/-- Tier-2 Jaccard score of a candidate file name against the input
words. -/
def fileJaccard (inputWords : List String) (file : String) : Frac :=
  computeJaccardSimilarity inputWords (extractSignificantWords (stripMdSuffix file))

/-- One loop iteration of the above-threshold pass: update the running
best match exactly as the source condition
score above threshold, and better than the best so far or an
alphabetically earlier filename at equal score. -/
def bestStep (inputWords : List String) (thr : Frac) (projectPath : String)
    (st : Option SimilarTopicMatch × Frac) (cand : String × String) :
    Option SimilarTopicMatch × Frac :=
  let category := cand.1
  let file := cand.2
  let score := fileJaccard inputWords file
  if thr.fle score &&
      (st.2.flt score ||
        (score.feq st.2 &&
          (st.1.isNone ||
            (match st.1 with
             | none => true
             | some m => jsStrLt file (jsBasename m.path))))) then
    (some ⟨pjoin (pjoin projectPath category) file, category, score⟩, score)
  else st

/-- The above-threshold pass over all candidates (bestMatch, bestScore
accumulation of the source loop). -/
def bestPass (inputWords : List String) (thr : Frac) (projectPath : String)
    (pairs : List (String × String)) : Option SimilarTopicMatch × Frac :=
  pairs.foldl (bestStep inputWords thr projectPath) (none, Frac.zero)

/-- The gray-zone collection of the same loop: candidates whose score is
below the threshold but inside [GRAY_ZONE_MIN, GRAY_ZONE_MAX], in
enumeration order. -/
def grayPass (inputWords : List String) (thr : Frac) (projectPath : String)
    (pairs : List (String × String)) : List SimilarTopicMatch :=
  pairs.filterMap (fun cand =>
    let score := fileJaccard inputWords cand.2
    if !(thr.fle score) && GRAY_ZONE_MIN.fle score && score.fle GRAY_ZONE_MAX then
      some ⟨pjoin (pjoin projectPath cand.1) cand.2, cand.1, score⟩
    else none)

/-- Array.prototype.sort with comparator (a, b) => b.score - a.score:
a stable descending sort by score.  Insertion sort with a non-strict
descending relation is exactly such a stable sort. -/
def sortByScoreDesc (cands : List SimilarTopicMatch) : List SimilarTopicMatch :=
  List.insertionSort (fun a b => b.score.fle a.score) cands

/-- Tier 3: walk the gray-zone candidates in descending score order and
return the first whose alias-augmented score reaches the threshold;
candidates without aliases are skipped. -/
def tier3Pass (aliasesOf : String → List String) (inputWords : List String)
    (thr : Frac) (grayCands : List SimilarTopicMatch) : Option SimilarTopicMatch :=
  (sortByScoreDesc grayCands).findSome? (fun cand =>
    let aliases := aliasesOf cand.path
    if aliases.isEmpty then none
    else
      let fileSlug := jsBasenameExt cand.path ".md"
      let scoreWithAliases := computeJaccardWithAliases inputWords fileSlug aliases
      if thr.fle scoreWithAliases then
        some ⟨cand.path, cand.category, scoreWithAliases⟩
      else none)

/-- Common core of findSimilarTopicInCategory / AcrossCategories on the
flattened list of (category, file) candidates; the nested
category-then-file loops of the source are presented as single passes
over this flattened list, which preserves their iteration order.
aliasesOf is the oracle for readNoteAliases (it already returns [] on
read errors, missing or non-array aliases, exactly as the source helper
does); projectExists embeds the existsSync check on the project path. -/
def findSimilarCore (aliasesOf : String → List String) (projectExists : Bool)
    (projectPath title : String) (threshold : Frac)
    (pairs : List (String × String)) : Option SimilarTopicMatch :=
  if title = "" || jsTrim title = "" then none
  else if !projectExists then none
  else
    let thr := clampThreshold threshold
    let inputSlug := strTake 50 (slugifyProjectName title)
    let inputWords := extractSignificantWords inputSlug
    if inputWords.length < 2 then
      (pairs.find? (fun cand => stripMdSuffix cand.2 == inputSlug)).map
        (fun cand => ⟨pjoin (pjoin projectPath cand.1) cand.2, cand.1, Frac.one⟩)
    else
      match (bestPass inputWords thr projectPath pairs).1 with
      | some m => some m
      | none =>
        tier3Pass aliasesOf inputWords thr (grayPass inputWords thr projectPath pairs)

/-- Find a similar topic within a single category.  files is the result
of the category scan (scanCategoryForNotes), in directory-listing
order. -/
def findSimilarTopicInCategory (aliasesOf : String → List String)
    (projectExists : Bool) (projectPath category title : String)
    (threshold : Frac) (files : List String) : Option SimilarTopicMatch :=
  findSimilarCore aliasesOf projectExists projectPath title threshold
    (files.map (fun f => (category, f)))

/-- Find a similar topic across all categories.  filesOf gives each
category's scan result in directory-listing order. -/
def findSimilarTopicAcrossCategories (aliasesOf : String → List String)
    (projectExists : Bool) (projectPath title : String) (threshold : Frac)
    (filesOf : String → List String) : Option SimilarTopicMatch :=
  findSimilarCore aliasesOf projectExists projectPath title threshold
    (CATEGORIES.flatMap (fun cat => (filesOf cat).map (fun f => (cat, f))))

/-- Shape of every entry the category scanner can actually return: a
plain markdown filename, with no path separator. -/
def goodScanFile (f : String) : Bool :=
  jsEndsWith f ".md" && !(f.data.contains '/')

/-! ## Note file format: simple YAML frontmatter -/

/-- Value shapes producible by the simple frontmatter parser. -/
inductive YamlValue where
  | vstr (s : String)
  | vnum (q : Frac)
  | vbool (b : Bool)
  | varr (items : List String)
  deriving DecidableEq, Repr

/-- Parsed frontmatter: an insertion-ordered key/value record, exactly
the shape of the JS object the parser builds. -/
abbrev Frontmatter := List (String × YamlValue)

/-- Property read on the frontmatter object. -/
def fmGet (fm : Frontmatter) (k : String) : Option YamlValue :=
  (fm.find? (fun kv => kv.1 == k)).map (fun kv => kv.2)

/-- Property write on the frontmatter object: existing keys keep their
position and get the new value, new keys are appended, as JS object
assignment / spread does. -/
def fmSet (fm : Frontmatter) (k : String) (v : YamlValue) : Frontmatter :=
  if fm.any (fun kv => kv.1 == k) then
    fm.map (fun kv => if kv.1 == k then (k, v) else kv)
  else fm ++ [(k, v)]

/-- Word characters of the line regex (letters, digits, underscore). -/
def wordChar (c : Char) : Bool :=
  let n := c.toNat
  (65 ≤ n && n ≤ 90) || (97 ≤ n && n ≤ 122) || (48 ≤ n && n ≤ 57) || n = 95

/-- Split a frontmatter line into key and raw value text following the
source's line regex: a non-empty word-character key anchored at the
start, a colon, optional whitespace, then the rest of the line.  Lines
that do not match are skipped by the parser. -/
def parseLine (line : List Char) : Option (String × String) :=
  let key := line.takeWhile wordChar
  match line.dropWhile wordChar with
  | ':' :: r =>
    if key.isEmpty then none
    else some (String.mk key, String.mk (r.dropWhile jsWhitespaceChar))
  | _ => none

/-- Quote characters stripped from array-element edges. -/
def edgeQuoteChar (c : Char) : Bool := c == '"' || c == Char.ofNat 39

/-- Strip one leading and one trailing quote character (double or
single) from an array element. -/
def stripEdgeQuotes (l : List Char) : List Char :=
  (dropLeadIf edgeQuoteChar ((dropLeadIf edgeQuoteChar l).reverse)).reverse

/-- Decimal digit test. -/
def isDigitChar (c : Char) : Bool := 48 ≤ c.toNat && c.toNat ≤ 57

/-- Value of a list of decimal digits. -/
def digitsToNat (l : List Char) : Nat :=
  l.foldl (fun n c => 10 * n + (c.toNat - 48)) 0

/-- Partial model of the JS Number() conversion used by the value
parser: whitespace-trimmed decimal literals with optional sign, decimal
point and exponent; the empty / all-whitespace string converts to 0.
Hex, octal, binary and Infinity literals are not modelled (they do not
occur in note files this development evaluates); none stands for NaN. -/
def jsNumber (s : String) : Option Frac :=
  let t := jsTrimList s.data
  if t.isEmpty then some Frac.zero
  else
    let (sign, t1) : Int × List Char :=
      match t with
      | '+' :: r => (1, r)
      | '-' :: r => (-1, r)
      | r => (1, r)
    let intPart := t1.takeWhile isDigitChar
    let r1 := t1.dropWhile isDigitChar
    let (fracPart, r2) : List Char × List Char :=
      match r1 with
      | '.' :: r => (r.takeWhile isDigitChar, r.dropWhile isDigitChar)
      | r => ([], r)
    if intPart.isEmpty && fracPart.isEmpty then none
    else
      let mantNum : Int := sign * (digitsToNat intPart * 10 ^ fracPart.length + digitsToNat fracPart)
      let mantDen : Nat := 10 ^ fracPart.length
      match r2 with
      | [] => some ⟨mantNum, mantDen⟩
      | e :: r3 =>
        if e == 'e' || e == 'E' then
          let (expSign, r4) : Bool × List Char :=
            match r3 with
            | '+' :: r => (true, r)
            | '-' :: r => (false, r)
            | r => (true, r)
          let expDigits := r4.takeWhile isDigitChar
          if expDigits.isEmpty || !(r4.dropWhile isDigitChar).isEmpty then none
          else
            let e10 : Nat := 10 ^ digitsToNat expDigits
            if expSign then some ⟨mantNum * e10, mantDen⟩
            else some ⟨mantNum, mantDen * e10⟩
        else none

/-- Parse one raw frontmatter value in the source's branch order:
bracketed array, double-quoted string, number, boolean, plain string. -/
def parseYamlValue (value : String) : YamlValue :=
  let l := value.data
  if l.head? = some '[' ∧ l.getLast? = some ']' then
    let arrayContent := (l.drop 1).take (l.length - 2)
    YamlValue.varr ((splitOnChar ',' arrayContent).map
      (fun w => String.mk (stripEdgeQuotes (jsTrimList w))))
  else if l.head? = some '"' ∧ l.getLast? = some '"' then
    YamlValue.vstr (String.mk ((l.drop 1).take (l.length - 2)))
  else
    match jsNumber value with
    | some q => YamlValue.vnum q
    | none =>
      if value = "true" then YamlValue.vbool true
      else if value = "false" then YamlValue.vbool false
      else YamlValue.vstr value

/-- Parse a frontmatter block line by line; later duplicate keys
overwrite earlier ones as JS object assignment does. -/
def parseSimpleYaml (yaml : String) : Frontmatter :=
  (splitOnChar '\n' yaml.data).foldl
    (fun fm line =>
      match parseLine line with
      | some (k, v) => fmSet fm k (parseYamlValue v)
      | none => fm)
    []

/-- Join strings with a separator (Array.prototype.join). -/
def joinSep (sep : String) : List String → String
  | [] => ""
  | x :: xs => xs.foldl (fun acc y => acc ++ sep ++ y) x

/-- Escape double quotes in a serialized string value. -/
def escapeQuotes (s : String) : String :=
  String.mk (s.data.flatMap (fun c => if c = '"' then ['\\', '"'] else [c]))

/-- JS number-to-string for frontmatter serialization.  Integral values
print exactly; non-integral values (never produced by the fields this
development evaluates) are printed as a fraction, standing in for the JS
float decimal form. -/
def fracToJsString (q : Frac) : String :=
  if q.den ≠ 0 ∧ q.num % (q.den : Int) = 0 then intToStr (q.num / (q.den : Int))
  else intToStr q.num ++ "/" ++ natToStr q.den

/-- Serialize one frontmatter value exactly as buildNoteContent does:
arrays as bracketed double-quoted items joined by comma-space (elements
unescaped), strings double-quoted with inner quotes escaped, numbers and
booleans raw. -/
def serializeYamlValue : YamlValue → String
  | YamlValue.vstr s => "\"" ++ escapeQuotes s ++ "\""
  | YamlValue.vnum q => fracToJsString q
  | YamlValue.vbool b => if b then "true" else "false"
  | YamlValue.varr items =>
    "[" ++ joinSep ", " (items.map (fun v => "\"" ++ v ++ "\"")) ++ "]"

/-- Rebuild the note text from frontmatter and body (buildNoteContent;
undefined/null values cannot occur in the embedded value type, so every
field is emitted). -/
def buildNoteContent (fm : Frontmatter) (content : String) : String :=
  joinSep "\n" (["---"] ++ fm.map (fun kv => kv.1 ++ ": " ++ serializeYamlValue kv.2) ++ ["---", ""])
    ++ content

/-- Split a character list at the first occurrence of sep (non-empty),
returning the parts before and after; none when sep does not occur.
Implements the lazy part of the frontmatter regex. -/
def splitFirstSep (sep : List Char) : List Char → Option (List Char × List Char)
  | [] => none
  | c :: cs =>
    if sep.isPrefixOf (c :: cs) then some ([], (c :: cs).drop sep.length)
    else
      match splitFirstSep sep cs with
      | some (a, b) => some (c :: a, b)
      | none => none

/-- Parse a note: a leading frontmatter fence, the lazily-matched yaml
block up to the first closing fence, then the body. -/
def parseNote (raw : String) : Option (Frontmatter × String) :=
  match raw.data with
  | '-' :: '-' :: '-' :: '\n' :: rest =>
    match splitFirstSep ('\n' :: '-' :: '-' :: '-' :: ['\n']) rest with
    | some (yaml, content) =>
      some (parseSimpleYaml (String.mk yaml), String.mk content)
    | none => none
  | _ => none

/-! ## Note mutator: append, aliases, rename -/

/-- Wall-clock oracle: the ISO timestamp produced by toISOString() and
the local HH:MM prefix of toTimeString(). -/
structure JsDate where
  iso : String
  timeHM : String

/-- Timestamp of an appended entry header: the date part of the ISO
string, a space, and the local HH:MM. -/
def entryTimestamp (now : JsDate) : String :=
  String.mk (now.iso.data.takeWhile (fun c => c ≠ 'T')) ++ " " ++ now.timeHM

/-- JS evaluation of (entry_count or-else 0) + 1 on the untyped parsed
value: numbers increment (0 is falsy and still yields 1); non-empty
strings concatenate "1"; booleans and arrays coerce as JS + does;
missing counts as 0. -/
def jsIncEntryCount : Option YamlValue → YamlValue
  | none => YamlValue.vnum Frac.one
  | some (YamlValue.vnum q) =>
    if q.num = 0 then YamlValue.vnum Frac.one
    else YamlValue.vnum ⟨q.num + q.den, q.den⟩
  | some (YamlValue.vstr s) =>
    if s = "" then YamlValue.vnum Frac.one else YamlValue.vstr (s ++ "1")
  | some (YamlValue.vbool b) =>
    if b then YamlValue.vnum ⟨2, 1⟩ else YamlValue.vnum Frac.one
  | some (YamlValue.varr items) => YamlValue.vstr (joinSep "," items ++ "1")

/-- JS evaluation of the spread of (tags or-else []): arrays spread to
themselves, falsy values default to the empty array, strings spread to
their characters, and spreading a non-iterable truthy value throws
(none), which the caller's try/catch turns into failure. -/
def jsSpreadTags : Option YamlValue → Option (List String)
  | none => some []
  | some (YamlValue.varr items) => some items
  | some (YamlValue.vstr s) =>
    if s = "" then some [] else some (s.data.map (fun c => String.mk [c]))
  | some (YamlValue.vnum q) => if q.num = 0 then some [] else none
  | some (YamlValue.vbool b) => if b then none else some []

/-- new Set(list) as an insertion-ordered deduplication (first
occurrence kept). -/
def jsSetDedupAux (seen : List String) : List String → List String
  | [] => []
  | a :: l =>
    if seen.contains a then jsSetDedupAux seen l
    else a :: jsSetDedupAux (a :: seen) l

/-- Array.from(new Set(list)): duplicate-free, first occurrences in
order. -/
def jsSetDedup (l : List String) : List String := jsSetDedupAux [] l

/-- Append a new entry to an existing note.  raw is the oracle for
reading the note file (none: missing/unreadable, making readNote fail).
On success, returns the updated frontmatter object and body that are
passed to writeNote; the written file text is buildNoteContent of the
two.  none is the source's false (read failure, unparseable note, or
the tag spread throwing). -/
def appendToExistingNote (now : JsDate) (raw : Option String)
    (newContent : String) (newTags : List String) : Option (Frontmatter × String) :=
  match raw with
  | none => none
  | some r =>
    match parseNote r with
    | none => none
    | some (fm, content) =>
      match jsSpreadTags (fmGet fm "tags") with
      | none => none
      | some existingTags =>
        let entryCount := jsIncEntryCount (fmGet fm "entry_count")
        let mergedTags := jsSetDedup (existingTags ++ newTags)
        let fm' :=
          fmSet (fmSet (fmSet fm "updated" (YamlValue.vstr now.iso))
            "tags" (YamlValue.varr mergedTags)) "entry_count" entryCount
        let newEntry := "\n\n---\n\n## Entry: " ++ entryTimestamp now ++ "\n\n" ++ newContent
        some (fm', content ++ newEntry)

/-- Aliases list of a parsed note: the aliases field when it is an
array (elements of the embedded array type are already strings), else
empty. -/
def aliasesOfFm (fm : Frontmatter) : List String :=
  match fmGet fm "aliases" with
  | some (YamlValue.varr items) => items
  | _ => []

/-- Add an alias to a note.  Returns the source's boolean result
together with the write effect: none means the note file was left
untouched.  raw is the read oracle as in appendToExistingNote. -/
def addAliasToNote (maxAliases : Nat) (now : JsDate) (raw : Option String)
    (aliasTitle : String) : Bool × Option (Frontmatter × String) :=
  if aliasTitle = "" || jsTrim aliasTitle = "" then (false, none)
  else
    let trimmedAlias := jsTrim aliasTitle
    match raw with
    | none => (false, none)
    | some r =>
      match parseNote r with
      | none => (false, none)
      | some (fm, content) =>
        let existingAliases := aliasesOfFm fm
        let aliasLower := jsToLower trimmedAlias
        if existingAliases.any (fun a => jsToLower a == aliasLower) then (true, none)
        else if maxAliases ≤ existingAliases.length then (false, none)
        else
          let updatedAliases := existingAliases ++ [trimmedAlias]
          let fm' := fmSet (fmSet fm "aliases" (YamlValue.varr updatedAliases))
            "updated" (YamlValue.vstr now.iso)
          (true, some (fm', content))

/-- Filesystem mutations of the rename path, reported instead of
performed. -/
inductive FsEffect where
  | writeFile (path content : String)
  | renameFile (src dst : String)
  | deleteFile (path : String)
  deriving DecidableEq, Repr

/-- Collision loop of the rename path: starting from suffix 1 and the
unsuffixed target, advance to slug-2, slug-3, ... while the target
exists and the suffix is within bounds; none models the
collision-exhaustion failure.  Fuel exceeds the iteration bound, so the
zero-fuel branch is unreachable. -/
def renLoop (ex : String → Bool) (dir slug : String) (maxAttempts : Nat) :
    Nat → Nat → String → Option String
  | 0, _, _ => none
  | fuel + 1, suffix, target =>
    if ex target && decide (suffix ≤ maxAttempts) then
      renLoop ex dir slug maxAttempts fuel (suffix + 1)
        (pjoin dir (slug ++ "-" ++ natToStr (suffix + 1) ++ ".md"))
    else if maxAttempts < suffix then none
    else some target

/-- Rename a note to a generic title.  fs is the filesystem read oracle
(existsSync p is (fs p).isSome and readNote reads fs p); inVault embeds
the validatePath containment check; tempName stands in for the random
temp filename.  Returns the source's result (new path, original path,
or none) and the file mutations performed. -/
def renameNoteWithGenericTitle (fs : String → Option String)
    (inVault : String → Bool) (now : JsDate) (tempName : String)
    (maxSuffixAttempts : Nat) (notePath genericTitle : String) :
    Option String × List FsEffect :=
  if genericTitle = "" || jsTrim genericTitle = "" then (some notePath, [])
  else if (fs notePath).isNone then (none, [])
  else if !inVault notePath then (none, [])
  else
    let newSlug := strTake 50 (slugifyProjectName genericTitle)
    if newSlug = "" then (some notePath, [])
    else
      let dir := jsDirname notePath
      let currentSlug := jsBasenameExt notePath ".md"
      if newSlug = currentSlug then (some notePath, [])
      else
        match renLoop (fun p => (fs p).isSome) dir newSlug maxSuffixAttempts
            (maxSuffixAttempts + 2) 1 (pjoin dir (newSlug ++ ".md")) with
        | none => (none, [])
        | some targetPath =>
          match fs notePath with
          | none => (none, [])
          | some raw =>
            match parseNote raw with
            | none => (none, [])
            | some (fm, content) =>
              let fm' := fmSet (fmSet fm "title" (YamlValue.vstr (jsTrim genericTitle)))
                "updated" (YamlValue.vstr now.iso)
              let newText := buildNoteContent fm' content
              let tempPath := pjoin dir tempName
              (some targetPath,
                [FsEffect.writeFile tempPath newText,
                 FsEffect.renameFile tempPath targetPath,
                 FsEffect.deleteFile notePath])

/-! ## Semantic matcher (external AI delegate) -/

/-- JSON values as produced by JSON.parse. -/
inductive JSValue where
  | jnull
  | jbool (b : Bool)
  | jnum (q : Frac)
  | jstr (s : String)
  | jarr (items : List JSValue)
  | jobj (fields : List (String × JSValue))

/-- Named property read on a parsed JSON value: objects look up the
field (later duplicate keys win, as in JSON.parse); arrays and
primitives have no such named properties (undefined). -/
def getProp (v : JSValue) (k : String) : Option JSValue :=
  match v with
  | JSValue.jobj fields =>
    fields.foldl (fun acc kv => if kv.1 == k then some kv.2 else acc) none
  | _ => none

/-- typeof v === "object" && v !== null. -/
def isObjectLike : JSValue → Bool
  | JSValue.jobj _ => true
  | JSValue.jarr _ => true
  | _ => false

/-- Structural type guard for the AI match response: an object with a
match object whose index is a number or null and whose confidence is
one of high / medium / low, and a string genericTitle. -/
def isAIMatchResponse (v : JSValue) : Bool :=
  isObjectLike v &&
  (match getProp v "match" with
   | some m =>
     isObjectLike m &&
     (match getProp m "index" with
      | some (JSValue.jnum _) => true
      | some JSValue.jnull => true
      | _ => false) &&
     (match getProp m "confidence" with
      | some (JSValue.jstr c) => c == "high" || c == "medium" || c == "low"
      | _ => false)
   | none => false) &&
  (match getProp v "genericTitle" with
   | some (JSValue.jstr _) => true
   | _ => false)

/-- Validate and sanitize a title: trimmed, non-empty, truncated to 100
characters. -/
def validateTitle (s : String) : Option String :=
  let trimmed := jsTrim s
  if trimmed = "" then none
  else if 100 < trimmed.data.length then some (strTake 100 trimmed)
  else some trimmed

/-- A candidate note offered to the semantic matcher. -/
structure NoteInfo where
  path : String
  title : String
  category : String
  deriving DecidableEq, Repr

/-- A semantic match result. -/
structure SemanticMatch where
  path : String
  category : String
  title : String
  confidence : String
  genericTitle : String
  deriving DecidableEq, Repr

/-- JS array indexing notes[q] for a number q: an element only for an
integral in-range index; a fractional index reads undefined, whose
subsequent property access throws (mapped to none and caught by the
caller). -/
def jsIndexGet (notes : List NoteInfo) (q : Frac) : Option NoteInfo :=
  if q.den ≠ 0 ∧ q.num % (q.den : Int) = 0 then notes.get? (q.num / (q.den : Int)).toNat
  else none

/-- Parse and validate the AI reply: none for unparseable JSON, a
failed type guard, a null index, an out-of-bounds index, or an invalid
generic title; otherwise the match built from the indexed note. -/
def parseMatchResponse (parsed : Option JSValue) (notes : List NoteInfo) :
    Option SemanticMatch :=
  match parsed with
  | none => none
  | some v =>
    if isAIMatchResponse v then
      match getProp v "match", getProp v "genericTitle" with
      | some m, some (JSValue.jstr gt) =>
        (match getProp m "index", getProp m "confidence" with
         | some JSValue.jnull, _ => none
         | some (JSValue.jnum q), some (JSValue.jstr conf) =>
           if q.flt Frac.zero || Frac.fle ⟨(notes.length : Int), 1⟩ q then none
           else
             match validateTitle gt with
             | none => none
             | some genericTitle =>
               match jsIndexGet notes q with
               | none => none
               | some note =>
                 some ⟨note.path, note.category, note.title, conf, genericTitle⟩
         | _, _ => none)
      | _, _ => none
    else none

/-- Outcome of the external subprocess call.  status is the exit code;
hasError embeds result.error (spawn failure or timeout termination);
stdoutJson is JSON.parse of the trimmed stdout, none when parsing
throws. -/
structure SpawnResult where
  status : Int
  hasError : Bool
  stdoutJson : Option JSValue

/-- Find a semantically similar note via the external process.
aiEnabled embeds config.ai?.enabled; every failure path yields none. -/
def findSemanticMatch (aiEnabled : Bool) (notes : List NoteInfo)
    (res : SpawnResult) : Option SemanticMatch :=
  if !aiEnabled then none
  else if notes.isEmpty then none
  else if res.status != 0 || res.hasError then none
  else parseMatchResponse res.stdoutJson notes

/-- No two adjacent characters both satisfy p (used to state that a
collapsed slug has no hyphen runs). -/
def noAdjacent (p : Char → Bool) (a b : Char) : Prop := p a = false ∨ p b = false

/-! # Lemmas and claim theorems -/

theorem Frac.toRat_zero : Frac.zero.toRat = 0 := by
  simp [Frac.toRat, Frac.zero]

theorem Frac.toRat_one : Frac.one.toRat = 1 := by
  simp [Frac.toRat, Frac.one]

theorem Frac.fle_iff {a b : Frac} (ha : a.den ≠ 0) (hb : b.den ≠ 0) :
    a.fle b = true ↔ a.toRat ≤ b.toRat := by
  have ha' : (0:ℚ) < (a.den : ℚ) := by positivity
  have hb' : (0:ℚ) < (b.den : ℚ) := by positivity
  rw [Frac.fle, Frac.toRat, Frac.toRat, div_le_div_iff₀ ha' hb', decide_eq_true_eq]
  constructor
  · intro h; exact_mod_cast h
  · intro h; exact_mod_cast h

theorem Frac.flt_iff {a b : Frac} (ha : a.den ≠ 0) (hb : b.den ≠ 0) :
    a.flt b = true ↔ a.toRat < b.toRat := by
  have ha' : (0:ℚ) < (a.den : ℚ) := by positivity
  have hb' : (0:ℚ) < (b.den : ℚ) := by positivity
  rw [Frac.flt, Frac.toRat, Frac.toRat, div_lt_div_iff₀ ha' hb', decide_eq_true_eq]
  constructor
  · intro h; exact_mod_cast h
  · intro h; exact_mod_cast h

theorem Frac.feq_iff {a b : Frac} (ha : a.den ≠ 0) (hb : b.den ≠ 0) :
    a.feq b = true ↔ a.toRat = b.toRat := by
  have ha' : (a.den : ℚ) ≠ 0 := by positivity
  have hb' : (b.den : ℚ) ≠ 0 := by positivity
  rw [Frac.feq, Frac.toRat, Frac.toRat, div_eq_div_iff ha' hb', decide_eq_true_eq]
  constructor
  · intro h; exact_mod_cast h
  · intro h; exact_mod_cast h

theorem jac_den_ne_zero (w1 w2 : List String) :
    (computeJaccardSimilarity w1 w2).den ≠ 0 := by
  unfold computeJaccardSimilarity
  split
  · simp [Frac.zero]
  · split
    · simp [Frac.zero]
    · rename_i h
      simpa using h

theorem jac_nonneg (w1 w2 : List String) :
    0 ≤ (computeJaccardSimilarity w1 w2).toRat := by
  unfold computeJaccardSimilarity
  split
  · simp [Frac.toRat_zero]
  · split
    · simp [Frac.toRat_zero]
    · simp only [Frac.toRat]
      positivity

theorem jac_le_one (w1 w2 : List String) :
    (computeJaccardSimilarity w1 w2).toRat ≤ 1 := by
  unfold computeJaccardSimilarity
  split
  · simp [Frac.toRat_zero]
  · split
    · simp [Frac.toRat_zero]
    · rename_i hu
      simp only [Frac.toRat]
      rw [div_le_one (by positivity)]
      have hcard : (w1.toFinset ∩ w2.toFinset).card ≤ (w1.toFinset ∪ w2.toFinset).card :=
        Finset.card_le_card ((Finset.inter_subset_left).trans Finset.subset_union_left)
      exact_mod_cast hcard

theorem jac_self_toRat_one (w : List String) (hw : w ≠ []) :
    (computeJaccardSimilarity w w).toRat = 1 := by
  have hlen : w.length ≠ 0 := by simpa using fun h => hw (List.length_eq_zero.mp h)
  have hfin : w.toFinset.card ≠ 0 := by
    simp only [ne_eq, Finset.card_eq_zero, List.toFinset_eq_empty_iff]
    exact hw
  unfold computeJaccardSimilarity
  rw [if_neg (by simp [hlen]), Finset.inter_self, Finset.union_self, if_neg (by simpa using hfin)]
  simp only [Frac.toRat]
  have hcast : ((w.toFinset.card : Int) : ℚ) = (w.toFinset.card : ℚ) := by push_cast; ring
  rw [hcast, div_self (by exact_mod_cast hfin)]

theorem aliasScoreOf_den_ne_zero (iw : List String) (a : String) :
    (aliasScoreOf iw a).den ≠ 0 := by
  unfold aliasScoreOf
  exact jac_den_ne_zero _ _

theorem aliasFold_ge (iw : List String) :
    ∀ (l : List String) (m : Frac), m.den ≠ 0 →
      (l.foldl (fun maxScore aliasTitle =>
        if maxScore.flt (aliasScoreOf iw aliasTitle) then aliasScoreOf iw aliasTitle
        else maxScore) m).den ≠ 0 ∧
      m.toRat ≤ (l.foldl (fun maxScore aliasTitle =>
        if maxScore.flt (aliasScoreOf iw aliasTitle) then aliasScoreOf iw aliasTitle
        else maxScore) m).toRat
  | [], m, hm => ⟨hm, le_refl _⟩
  | a :: l, m, hm => by
    simp only [List.foldl_cons]
    by_cases h : m.flt (aliasScoreOf iw a) = true
    · rw [if_pos h]
      have hs := aliasScoreOf_den_ne_zero iw a
      have ih := aliasFold_ge iw l (aliasScoreOf iw a) hs
      exact ⟨ih.1, le_trans (le_of_lt ((Frac.flt_iff hm hs).mp h)) ih.2⟩
    · rw [if_neg h]
      exact aliasFold_ge iw l m hm

/-- C9: the alias-augmented score is at least the plain slug score, and
appending a further alias never decreases it — recorded aliases can only
widen a candidate's match score. -/
theorem spec_C9_alias_widening (inputWords : List String) (fileSlug : String)
    (aliases : List String) (a : String) :
    (computeJaccardSimilarity inputWords (extractSignificantWords fileSlug)).toRat ≤
      (computeJaccardWithAliases inputWords fileSlug aliases).toRat ∧
    (computeJaccardWithAliases inputWords fileSlug aliases).toRat ≤
      (computeJaccardWithAliases inputWords fileSlug (aliases ++ [a])).toRat := by
  have hbase := jac_den_ne_zero inputWords (extractSignificantWords fileSlug)
  constructor
  · exact (aliasFold_ge inputWords aliases _ hbase).2
  · unfold computeJaccardWithAliases
    rw [List.foldl_append]
    simp only [List.foldl_cons, List.foldl_nil]
    have hfold := aliasFold_ge inputWords aliases _ hbase
    by_cases h : (List.foldl (fun maxScore aliasTitle =>
        if maxScore.flt (aliasScoreOf inputWords aliasTitle) then aliasScoreOf inputWords aliasTitle
        else maxScore) (computeJaccardSimilarity inputWords (extractSignificantWords fileSlug))
        aliases).flt (aliasScoreOf inputWords a) = true
    · rw [if_pos h]
      exact le_of_lt ((Frac.flt_iff hfold.1 (aliasScoreOf_den_ne_zero inputWords a)).mp h)
    · rw [if_neg h]

/-- C8: Jaccard similarity is symmetric in its two word lists, and
invariant under reordering (permutation) of the words of either side. -/
theorem spec_C8_jaccard_symmetry :
    (∀ A B : List String, computeJaccardSimilarity A B = computeJaccardSimilarity B A) ∧
    (∀ A A' B : List String, A.Perm A' →
      computeJaccardSimilarity A B = computeJaccardSimilarity A' B ∧
      computeJaccardSimilarity B A = computeJaccardSimilarity B A') := by
  constructor
  · intro A B
    by_cases hA : A.length = 0 <;> by_cases hB : B.length = 0 <;>
      simp [computeJaccardSimilarity, hA, hB, Finset.inter_comm, Finset.union_comm]
  · intro A A' B hp
    constructor <;>
      simp only [computeJaccardSimilarity, hp.length_eq, List.toFinset_eq_of_perm _ _ hp]

/-- Witness for C8 at a concrete reordered pair. -/
theorem spec_C8_jaccard_symmetry_witness :
    computeJaccardSimilarity ["hook", "session"] ["session", "lifecycle"] =
      computeJaccardSimilarity ["session", "hook"] ["session", "lifecycle"] :=
  (spec_C8_jaccard_symmetry.2 ["hook", "session"] ["session", "hook"]
    ["session", "lifecycle"] (by decide)).1

/-! ## Slug normalizer: idempotence (C7) -/

theorem slugAllowedChar_iff (c : Char) :
    slugAllowedChar c = true ↔
      (97 ≤ c.toNat ∧ c.toNat ≤ 122) ∨ (48 ≤ c.toNat ∧ c.toNat ≤ 57) ∨
      c.toNat = 95 ∨ c.toNat = 45 := by
  simp only [slugAllowedChar, Bool.or_eq_true, Bool.and_eq_true, decide_eq_true_eq]
  tauto

theorem toLower_of_allowed {c : Char} (h : slugAllowedChar c = true) :
    c.toLower = c := by
  have h' := (slugAllowedChar_iff c).mp h
  simp only [Char.toLower]
  rw [if_neg]
  omega

theorem ws_of_allowed {c : Char} (h : slugAllowedChar c = true) :
    jsWhitespaceChar c = false := by
  cases hb : jsWhitespaceChar c
  · rfl
  · exfalso
    have h' := (slugAllowedChar_iff c).mp h
    simp only [jsWhitespaceChar, Bool.or_eq_true, Bool.and_eq_true,
      decide_eq_true_eq] at hb
    omega

theorem not_dot_of_allowed {c : Char} (h : slugAllowedChar c = true) :
    (c == '.') = false := by
  cases hb : c == '.'
  · rfl
  · exfalso
    have hc : c = '.' := beq_iff_eq.mp hb
    subst hc
    exact absurd h (by decide)

theorem replaceRunsAux_id (p : Char → Bool) :
    ∀ (l : List Char) (b : Bool), (∀ c ∈ l, p c = false) →
      replaceRunsAux p b l = l
  | [], _, _ => rfl
  | c :: cs, b, h => by
    have hc : ¬ (p c = true) := by
      rw [h c (List.mem_cons_self c cs)]; exact Bool.false_ne_true
    rw [replaceRunsAux, if_neg hc,
      replaceRunsAux_id p cs false (fun x hx => h x (List.mem_cons_of_mem _ hx))]

theorem mem_replaceRunsAux (p : Char → Bool) :
    ∀ (l : List Char) (b : Bool) (c : Char), c ∈ replaceRunsAux p b l →
      c = '-' ∨ (c ∈ l ∧ p c = false)
  | [], _, _, h => absurd h (List.not_mem_nil _)
  | a :: cs, b, c, h => by
    rw [replaceRunsAux] at h
    by_cases ha : p a = true
    · rw [if_pos ha] at h
      cases b with
      | true =>
        rcases mem_replaceRunsAux p cs true c h with h1 | ⟨h2, h3⟩
        · exact Or.inl h1
        · exact Or.inr ⟨List.mem_cons_of_mem _ h2, h3⟩
      | false =>
        rcases List.mem_cons.mp h with h1 | h1
        · exact Or.inl h1
        · rcases mem_replaceRunsAux p cs true c h1 with h2 | ⟨h3, h4⟩
          · exact Or.inl h2
          · exact Or.inr ⟨List.mem_cons_of_mem _ h3, h4⟩
    · rw [if_neg ha] at h
      rcases List.mem_cons.mp h with h1 | h1
      · subst h1
        exact Or.inr ⟨List.mem_cons_self _ _, Bool.not_eq_true _ ▸ ha⟩
      · rcases mem_replaceRunsAux p cs false c h1 with h2 | ⟨h3, h4⟩
        · exact Or.inl h2
        · exact Or.inr ⟨List.mem_cons_of_mem _ h3, h4⟩

theorem head_replaceRunsAux_true (p : Char → Bool) :
    ∀ (l : List Char) (c : Char), (replaceRunsAux p true l).head? = some c →
      p c = false
  | [], c, h => by simp [replaceRunsAux] at h
  | a :: cs, c, h => by
    rw [replaceRunsAux] at h
    by_cases ha : p a = true
    · rw [if_pos ha] at h
      exact head_replaceRunsAux_true p cs c h
    · rw [if_neg ha] at h
      simp only [List.head?_cons, Option.some.injEq] at h
      subst h
      exact Bool.not_eq_true _ ▸ ha

theorem chain_replaceRunsAux (p : Char → Bool) :
    ∀ (l : List Char) (b : Bool),
      List.Chain' (noAdjacent p) (replaceRunsAux p b l)
  | [], _ => List.chain'_nil
  | a :: cs, b => by
    rw [replaceRunsAux]
    by_cases ha : p a = true
    · rw [if_pos ha]
      cases b with
      | true => exact chain_replaceRunsAux p cs true
      | false =>
        rw [if_neg (by decide : ¬ (false = true)), List.chain'_cons']
        refine ⟨fun c hc => ?_, chain_replaceRunsAux p cs true⟩
        exact Or.inr (head_replaceRunsAux_true p cs c (Option.mem_def.mp hc))
    · rw [if_neg ha]
      rw [List.chain'_cons']
      refine ⟨fun c _ => Or.inl (Bool.not_eq_true _ ▸ ha), chain_replaceRunsAux p cs false⟩

theorem collapseAux_id :
    ∀ (l : List Char), List.Chain' (noAdjacent (fun c => c == '-')) l →
      replaceRunsAux (fun c => c == '-') false l = l ∧
      ((∀ c, l.head? = some c → (c == '-') = false) →
        replaceRunsAux (fun c => c == '-') true l = l)
  | [], _ => ⟨rfl, fun _ => rfl⟩
  | a :: cs, hch => by
    have htail : List.Chain' (noAdjacent (fun c => c == '-')) cs := hch.tail
    have hrel := (List.chain'_cons'.mp hch).1
    by_cases ha : (a == '-') = true
    · have haeq : a = '-' := beq_iff_eq.mp ha
      have hcs : ∀ c, cs.head? = some c → (c == '-') = false := by
        intro c hc
        rcases hrel c (Option.mem_def.mpr hc) with h1 | h1
        · have h1' : (a == '-') = false := h1
          rw [ha] at h1'
          exact absurd h1' (by decide)
        · exact h1
      constructor
      · rw [replaceRunsAux, if_pos ha, if_neg (by decide : ¬ (false = true)),
          (collapseAux_id cs htail).2 hcs, haeq]
      · intro hhead
        have hcontra := hhead a rfl
        rw [ha] at hcontra
        exact absurd hcontra (by decide)
    · constructor
      · rw [replaceRunsAux, if_neg ha, (collapseAux_id cs htail).1]
      · intro _
        rw [replaceRunsAux, if_neg ha, (collapseAux_id cs htail).1]

theorem dropLeadIf_eq_or (p : Char → Bool) (l : List Char) :
    dropLeadIf p l = l ∨ dropLeadIf p l = l.tail := by
  cases l with
  | nil => exact Or.inl rfl
  | cons c t =>
    by_cases hc : p c = true
    · exact Or.inr (by rw [dropLeadIf, if_pos hc]; rfl)
    · exact Or.inl (by rw [dropLeadIf, if_neg hc])

theorem dropLeadIf_eq_self {p : Char → Bool} {l : List Char}
    (h : ∀ c, l.head? = some c → p c = false) : dropLeadIf p l = l := by
  cases l with
  | nil => rfl
  | cons c t =>
    rw [dropLeadIf, if_neg]
    rw [h c rfl]
    exact Bool.false_ne_true

theorem mem_dropLeadIf {p : Char → Bool} {l : List Char} {c : Char}
    (h : c ∈ dropLeadIf p l) : c ∈ l := by
  rcases dropLeadIf_eq_or p l with he | he
  · rwa [he] at h
  · rw [he] at h
    exact List.mem_of_mem_tail h

theorem chain'_dropLeadIf {R : Char → Char → Prop} {p : Char → Bool} {l : List Char}
    (h : List.Chain' R l) : List.Chain' R (dropLeadIf p l) := by
  rcases dropLeadIf_eq_or p l with he | he
  · rwa [he]
  · rw [he]; exact h.tail

theorem head_dropLeadIf_hyphen {l : List Char}
    (hch : List.Chain' (noAdjacent (fun c => c == '-')) l) :
    ∀ c, (dropLeadIf (fun c => c == '-') l).head? = some c → (c == '-') = false := by
  intro c hc
  cases l with
  | nil => simp [dropLeadIf] at hc
  | cons a t =>
    by_cases ha : (a == '-') = true
    · rw [dropLeadIf, if_pos ha] at hc
      have hrel := (List.chain'_cons'.mp hch).1
      rcases hrel c (Option.mem_def.mpr hc) with h1 | h1
      · have h1' : (a == '-') = false := h1
        rw [ha] at h1'
        exact absurd h1' (by decide)
      · exact h1
    · rw [dropLeadIf, if_neg ha] at hc
      simp only [List.head?_cons, Option.some.injEq] at hc
      subst hc
      exact Bool.not_eq_true _ ▸ ha

theorem getLast?_dropLeadIf {p : Char → Bool} {l : List Char} {c : Char}
    (h : (dropLeadIf p l).getLast? = some c) : l.getLast? = some c := by
  rcases dropLeadIf_eq_or p l with he | he
  · rwa [he] at h
  · rw [he] at h
    cases l with
    | nil => simp at h
    | cons x t =>
      cases t with
      | nil => simp at h
      | cons y r =>
        simpa [List.getLast?_cons_cons] using h

theorem chain'_reverse_hyphen {l : List Char}
    (h : List.Chain' (noAdjacent (fun c => c == '-')) l) :
    List.Chain' (noAdjacent (fun c => c == '-')) l.reverse := by
  rw [List.chain'_reverse]
  exact h.imp (fun a b hab => hab.symm)

theorem trimEdgeHyphens_props {l : List Char}
    (hch : List.Chain' (noAdjacent (fun c => c == '-')) l) :
    (∀ c ∈ trimEdgeHyphens l, c ∈ l) ∧
    List.Chain' (noAdjacent (fun c => c == '-')) (trimEdgeHyphens l) ∧
    (∀ c, (trimEdgeHyphens l).head? = some c → (c == '-') = false) ∧
    (∀ c, (trimEdgeHyphens l).getLast? = some c → (c == '-') = false) := by
  set p : Char → Bool := fun c => c == '-' with hp
  set u := dropLeadIf p l with hu
  set v := dropLeadIf p u.reverse with hv
  have htrim : trimEdgeHyphens l = v.reverse := rfl
  have hchu : List.Chain' (noAdjacent p) u := chain'_dropLeadIf hch
  have hchur : List.Chain' (noAdjacent p) u.reverse := chain'_reverse_hyphen hchu
  have hchv : List.Chain' (noAdjacent p) v := chain'_dropLeadIf hchur
  refine ⟨?_, ?_, ?_, ?_⟩
  · intro c hc
    rw [htrim, List.mem_reverse] at hc
    have := mem_dropLeadIf hc
    rw [List.mem_reverse] at this
    exact mem_dropLeadIf this
  · rw [htrim]
    exact chain'_reverse_hyphen hchv
  · intro c hc
    rw [htrim, List.head?_reverse] at hc
    have hlast : u.reverse.getLast? = some c := getLast?_dropLeadIf hc
    rw [List.getLast?_reverse] at hlast
    exact head_dropLeadIf_hyphen hch c hlast
  · intro c hc
    rw [htrim, List.getLast?_reverse] at hc
    exact head_dropLeadIf_hyphen hchur c hc

theorem trimEdgeHyphens_eq_self {l : List Char}
    (hhead : ∀ c, l.head? = some c → (c == '-') = false)
    (hlast : ∀ c, l.getLast? = some c → (c == '-') = false) :
    trimEdgeHyphens l = l := by
  have h1 : dropLeadIf (fun c => c == '-') l = l := dropLeadIf_eq_self hhead
  have h2 : dropLeadIf (fun c => c == '-') l.reverse = l.reverse := by
    refine dropLeadIf_eq_self ?_
    intro c hc
    rw [List.head?_reverse] at hc
    exact hlast c hc
  rw [trimEdgeHyphens, h1, h2, List.reverse_reverse]

theorem slugifyChars_fixed {m : List Char}
    (hmem : ∀ c ∈ m, slugAllowedChar c = true)
    (hch : List.Chain' (noAdjacent (fun c => c == '-')) m)
    (hhead : ∀ c, m.head? = some c → (c == '-') = false)
    (hlast : ∀ c, m.getLast? = some c → (c == '-') = false) :
    slugifyChars m = m := by
  have h0 : m.map Char.toLower = m := by
    have : m.map Char.toLower = m.map id :=
      List.map_congr_left (fun c hc => toLower_of_allowed (hmem c hc))
    rw [this, List.map_id]
  have h1 : replaceRuns jsWhitespaceChar m = m :=
    replaceRunsAux_id _ m false (fun c hc => ws_of_allowed (hmem c hc))
  have h2 : replaceRuns (fun c => c == '.') m = m :=
    replaceRunsAux_id _ m false (fun c hc => not_dot_of_allowed (hmem c hc))
  have h3 : m.filter slugAllowedChar = m := List.filter_eq_self.mpr hmem
  have h4 : replaceRuns (fun c => c == '-') m = m := (collapseAux_id m hch).1
  rw [slugifyChars, h0, h1, h2, h3, h4, trimEdgeHyphens_eq_self hhead hlast]

theorem slugifyChars_good (l : List Char) :
    (∀ c ∈ slugifyChars l, slugAllowedChar c = true) ∧
    List.Chain' (noAdjacent (fun c => c == '-')) (slugifyChars l) ∧
    (∀ c, (slugifyChars l).head? = some c → (c == '-') = false) ∧
    (∀ c, (slugifyChars l).getLast? = some c → (c == '-') = false) := by
  set l3 := (replaceRuns (fun c => c == '.')
    (replaceRuns jsWhitespaceChar (l.map Char.toLower))).filter slugAllowedChar with hl3
  set l4 := replaceRuns (fun c => c == '-') l3 with hl4
  have hslug : slugifyChars l = trimEdgeHyphens l4 := rfl
  have h4mem : ∀ c ∈ l4, slugAllowedChar c = true := by
    intro c hc
    rcases mem_replaceRunsAux _ l3 false c hc with h | ⟨h, _⟩
    · subst h; decide
    · exact (List.mem_filter.mp h).2
  have h4ch : List.Chain' (noAdjacent (fun c => c == '-')) l4 :=
    chain_replaceRunsAux _ l3 false
  obtain ⟨tmem, tch, thead, tlast⟩ := trimEdgeHyphens_props h4ch
  rw [hslug]
  exact ⟨fun c hc => h4mem c (tmem c hc), tch, thead, tlast⟩

/-- C7: the slug normalizer is idempotent. -/
theorem spec_C7_slugify_idempotent (s : String) :
    slugifyProjectName (slugifyProjectName s) = slugifyProjectName s := by
  obtain ⟨hmem, hch, hhead, hlast⟩ := slugifyChars_good s.data
  show String.mk (slugifyChars (slugifyChars s.data)) = String.mk (slugifyChars s.data)
  rw [slugifyChars_fixed hmem hch hhead hlast]

/-! ## Frontmatter update lemmas and the note-mutator claims -/

theorem fmGet_mapSet_ne (kSet k : String) (v : YamlValue) (h : k ≠ kSet) :
    ∀ (t : Frontmatter),
      fmGet (t.map (fun kv => if kv.1 == kSet then (kSet, v) else kv)) k = fmGet t k
  | [] => rfl
  | kv :: r => by
    by_cases h0 : (kv.1 == kSet) = true
    · have hks : (kSet == k) = false := beq_eq_false_iff_ne.mpr (fun he => h he.symm)
      have hkv : (kv.1 == k) = false := by
        have hkv1 : kv.1 = kSet := beq_iff_eq.mp h0
        rw [hkv1]
        exact hks
      simp only [List.map_cons, if_pos h0, fmGet, List.find?, hks, hkv]
      exact fmGet_mapSet_ne kSet k v h r
    · simp only [List.map_cons, if_neg h0]
      by_cases h1 : (kv.1 == k) = true
      · simp only [fmGet, List.find?, h1]
      · simp only [Bool.not_eq_true] at h1
        simp only [fmGet, List.find?, h1]
        exact fmGet_mapSet_ne kSet k v h r

theorem fmGet_fmSet_ne (fm : Frontmatter) (kSet k : String) (v : YamlValue)
    (h : k ≠ kSet) : fmGet (fmSet fm kSet v) k = fmGet fm k := by
  unfold fmSet
  split
  · exact fmGet_mapSet_ne kSet k v h fm
  · unfold fmGet
    rw [List.find?_append]
    have hlast : List.find? (fun kv => kv.1 == k) [(kSet, v)] = none := by
      simp [List.find?, beq_eq_false_iff_ne.mpr (fun he => h he.symm)]
    rw [hlast]
    cases List.find? (fun kv => kv.1 == k) fm <;> rfl

theorem fmGet_mapSet_same (k : String) (v : YamlValue) :
    ∀ (t : Frontmatter), t.any (fun kv => kv.1 == k) = true →
      fmGet (t.map (fun kv => if kv.1 == k then (k, v) else kv)) k = some v
  | [], h => by simp at h
  | kv :: t, h => by
    by_cases h0 : (kv.1 == k) = true
    · simp only [List.map_cons, if_pos h0, fmGet, List.find?, beq_self_eq_true]
      rfl
    · have ht : t.any (fun kv => kv.1 == k) = true := by
        rw [List.any_cons] at h
        rcases Bool.or_eq_true_iff.mp h with h1 | h1
        · exact absurd h1 h0
        · exact h1
      simp only [Bool.not_eq_true] at h0
      simp only [List.map_cons, h0, Bool.false_eq_true, if_false, fmGet, List.find?]
      exact fmGet_mapSet_same k v t ht

theorem fmGet_fmSet_same (fm : Frontmatter) (k : String) (v : YamlValue) :
    fmGet (fmSet fm k v) k = some v := by
  unfold fmSet
  split
  · rename_i hany
    exact fmGet_mapSet_same k v fm hany
  · unfold fmGet
    rw [List.find?_append]
    have hfm : List.find? (fun kv => kv.1 == k) fm = none := by
      rename_i hany
      rw [List.find?_eq_none]
      intro kv hmem hk
      exact hany (List.any_eq_true.mpr ⟨kv, hmem, hk⟩)
    rw [hfm]
    simp only [List.find?, beq_self_eq_true]
    rfl

/-- C4 (amended): a successful append preserves, at the parsed-field
level, every frontmatter field other than updated, tags and
entry_count — same key, same parsed value.  (Verbatim text preservation
fails: see the counterexample.) -/
theorem spec_C4_unknown_fields_preserved (now : JsDate) (r newContent : String)
    (newTags : List String) (fm fm' : Frontmatter) (content body' : String)
    (k : String)
    (hparse : parseNote r = some (fm, content))
    (happend : appendToExistingNote now (some r) newContent newTags = some (fm', body'))
    (hk1 : k ≠ "updated") (hk2 : k ≠ "tags") (hk3 : k ≠ "entry_count") :
    fmGet fm' k = fmGet fm k := by
  simp only [appendToExistingNote, hparse] at happend
  split at happend
  · exact absurd happend (by simp)
  · simp only [Option.some.injEq, Prod.mk.injEq] at happend
    obtain ⟨hfm', _⟩ := happend
    rw [← hfm', fmGet_fmSet_ne _ _ _ _ hk3, fmGet_fmSet_ne _ _ _ _ hk2,
      fmGet_fmSet_ne _ _ _ _ hk1]

/-- Witness for C4 (amended) at a concrete note carrying a custom
field. -/
theorem spec_C4_unknown_fields_preserved_witness :
    fmGet [("title", YamlValue.vstr "X"), ("custom", YamlValue.vnum ⟨7, 1⟩),
        ("updated", YamlValue.vstr "2024-01-01T12:00:00.000Z"),
        ("tags", YamlValue.varr []), ("entry_count", YamlValue.vnum Frac.one)] "custom" =
      fmGet [("title", YamlValue.vstr "X"), ("custom", YamlValue.vnum ⟨7, 1⟩)] "custom" :=
  spec_C4_unknown_fields_preserved ⟨"2024-01-01T12:00:00.000Z", "12:00"⟩
    "---\ntitle: \"X\"\ncustom: 7\n---\nbody" "new" []
    [("title", YamlValue.vstr "X"), ("custom", YamlValue.vnum ⟨7, 1⟩)]
    [("title", YamlValue.vstr "X"), ("custom", YamlValue.vnum ⟨7, 1⟩),
     ("updated", YamlValue.vstr "2024-01-01T12:00:00.000Z"),
     ("tags", YamlValue.varr []), ("entry_count", YamlValue.vnum Frac.one)]
    "body" "body\n\n---\n\n## Entry: 2024-01-01 12:00\n\nnew" "custom"
    (by decide) (by decide) (by decide) (by decide) (by decide)

/-- Counterexample to C4 as stated: the custom field my-field (whose
key is not made of word characters) is dropped entirely by a successful
append, and its line does not appear in the rewritten note text. -/
theorem spec_C4_counterexample :
    (jsSplit '\n' "---\ntitle: \"X\"\nmy-field: 7\n---\nbody").contains "my-field: 7" = true ∧
    ((appendToExistingNote ⟨"2024-01-01T12:00:00.000Z", "12:00"⟩
        (some "---\ntitle: \"X\"\nmy-field: 7\n---\nbody") "new" []).map
      (fun res => (jsSplit '\n' (buildNoteContent res.1 res.2)).contains "my-field: 7")) =
      some false :=
  ⟨by decide, by decide⟩

/-- C5 (amended): for a readable note, a successful append increments a
numeric (or absent) entry_count by exactly one, keeps created, refreshes
updated, merges tags as a duplicate-free union when they are absent or
an array, and appends the new material under a timestamped entry header
after the unchanged previous body. -/
theorem spec_C5_append_monotonic (now : JsDate) (r newContent : String)
    (newTags : List String) (fm fm' : Frontmatter) (content body' : String)
    (hparse : parseNote r = some (fm, content))
    (happend : appendToExistingNote now (some r) newContent newTags = some (fm', body')) :
    (fmGet fm "entry_count" = none →
      fmGet fm' "entry_count" = some (YamlValue.vnum Frac.one)) ∧
    (∀ q : Frac, q.den ≠ 0 → fmGet fm "entry_count" = some (YamlValue.vnum q) →
      ∃ q' : Frac, fmGet fm' "entry_count" = some (YamlValue.vnum q') ∧ q'.den ≠ 0 ∧
        q'.toRat = q.toRat + 1) ∧
    fmGet fm' "created" = fmGet fm "created" ∧
    fmGet fm' "updated" = some (YamlValue.vstr now.iso) ∧
    (∀ l, fmGet fm "tags" = some (YamlValue.varr l) →
      fmGet fm' "tags" = some (YamlValue.varr (jsSetDedup (l ++ newTags)))) ∧
    (fmGet fm "tags" = none →
      fmGet fm' "tags" = some (YamlValue.varr (jsSetDedup newTags))) ∧
    body' = content ++ ("\n\n---\n\n## Entry: " ++ entryTimestamp now ++ "\n\n" ++ newContent) := by
  simp only [appendToExistingNote, hparse] at happend
  split at happend
  · exact absurd happend (by simp)
  · rename_i existingTags heq
    simp only [Option.some.injEq, Prod.mk.injEq] at happend
    obtain ⟨hfm', hbody'⟩ := happend
    refine ⟨?_, ?_, ?_, ?_, ?_, ?_, ?_⟩
    · intro hec
      rw [← hfm', fmGet_fmSet_same, hec]
      rfl
    · intro q hden hec
      rw [← hfm', fmGet_fmSet_same, hec]
      simp only [jsIncEntryCount]
      by_cases hq : q.num = 0
      · refine ⟨Frac.one, by rw [if_pos hq], by decide, ?_⟩
        rw [Frac.toRat_one, Frac.toRat, hq]
        simp
      · refine ⟨⟨q.num + q.den, q.den⟩, by rw [if_neg hq], hden, ?_⟩
        simp only [Frac.toRat]
        have hden' : ((q.den : ℚ)) ≠ 0 := by positivity
        field_simp
    · rw [← hfm', fmGet_fmSet_ne _ _ _ _ (by decide), fmGet_fmSet_ne _ _ _ _ (by decide),
        fmGet_fmSet_ne _ _ _ _ (by decide)]
    · rw [← hfm', fmGet_fmSet_ne _ _ _ _ (by decide), fmGet_fmSet_ne _ _ _ _ (by decide),
        fmGet_fmSet_same]
    · intro l hl
      rw [hl] at heq
      simp only [jsSpreadTags, Option.some.injEq] at heq
      rw [← hfm', fmGet_fmSet_ne _ _ _ _ (by decide), fmGet_fmSet_same, ← heq]
    · intro hl
      rw [hl] at heq
      simp only [jsSpreadTags, Option.some.injEq] at heq
      rw [← hfm', fmGet_fmSet_ne _ _ _ _ (by decide), fmGet_fmSet_same, ← heq]
      simp
    · rw [← hbody']

/-- Witness for C5 (amended) at a concrete note. -/
theorem spec_C5_append_monotonic_witness :
    fmGet [("entry_count", YamlValue.vnum ⟨2, 1⟩), ("tags", YamlValue.varr ["a", "b"]),
        ("updated", YamlValue.vstr "2024-01-01T12:00:00.000Z")] "created" =
      fmGet [("entry_count", YamlValue.vnum ⟨1, 1⟩), ("tags", YamlValue.varr ["a"])]
        "created" :=
  (spec_C5_append_monotonic ⟨"2024-01-01T12:00:00.000Z", "12:00"⟩
    "---\nentry_count: 1\ntags: [\"a\"]\n---\nbody" "new" ["b"]
    [("entry_count", YamlValue.vnum ⟨1, 1⟩), ("tags", YamlValue.varr ["a"])]
    [("entry_count", YamlValue.vnum ⟨2, 1⟩), ("tags", YamlValue.varr ["a", "b"]),
     ("updated", YamlValue.vstr "2024-01-01T12:00:00.000Z")]
    "body" "body\n\n---\n\n## Entry: 2024-01-01 12:00\n\nnew"
    (by decide) (by decide)).2.2.1

/-- Counterexample to C5 as stated: a readable note whose entry_count
is the plain string abc appends successfully, but the resulting
entry_count is the string abc1 (JS string concatenation), not a number
one greater than before. -/
theorem spec_C5_counterexample :
    (parseNote "---\nentry_count: abc\n---\nbody").map (fun pr => fmGet pr.1 "entry_count") =
      some (some (YamlValue.vstr "abc")) ∧
    (appendToExistingNote ⟨"2024-01-01T12:00:00.000Z", "12:00"⟩
        (some "---\nentry_count: abc\n---\nbody") "new" []).map
      (fun res => fmGet res.1 "entry_count") = some (some (YamlValue.vstr "abc1")) :=
  ⟨by decide, by decide⟩

/-- C6: an alias already stored case-insensitively reports success with
no write; a note already holding MAX_ALIASES aliases rejects a new
alias and leaves the file untouched. -/
theorem spec_C6_alias_bound (maxAliases : Nat) (now : JsDate) (r : String)
    (fm : Frontmatter) (content aliasTitle : String)
    (hparse : parseNote r = some (fm, content))
    (htrim : jsTrim aliasTitle ≠ "") :
    ((∃ a ∈ aliasesOfFm fm, jsToLower a = jsToLower (jsTrim aliasTitle)) →
      addAliasToNote maxAliases now (some r) aliasTitle = (true, none)) ∧
    ((aliasesOfFm fm).length = maxAliases →
      (∀ a ∈ aliasesOfFm fm, jsToLower a ≠ jsToLower (jsTrim aliasTitle)) →
      addAliasToNote maxAliases now (some r) aliasTitle = (false, none)) := by
  have hne : aliasTitle ≠ "" := by
    intro he
    rw [he] at htrim
    exact htrim rfl
  have hcond : ¬ ((aliasTitle = "" || jsTrim aliasTitle = "") = true) := by
    simp [hne, htrim]
  constructor
  · intro ⟨a, hmem, heq⟩
    simp only [addAliasToNote, if_neg hcond, hparse]
    rw [if_pos (show ((aliasesOfFm fm).any
        fun x => jsToLower x == jsToLower (jsTrim aliasTitle)) = true from
      List.any_eq_true.mpr ⟨a, hmem, beq_iff_eq.mpr heq⟩)]
  · intro hlen hnone
    have hany : ¬ (((aliasesOfFm fm).any
        fun x => jsToLower x == jsToLower (jsTrim aliasTitle)) = true) := by
      intro hany
      obtain ⟨a, hmem, ha⟩ := List.any_eq_true.mp hany
      exact hnone a hmem (beq_iff_eq.mp ha)
    simp only [addAliasToNote, if_neg hcond, hparse]
    rw [if_neg hany, if_pos (le_of_eq hlen.symm)]

/-- Witness for C6 at a concrete note holding exactly two aliases with
bound two. -/
theorem spec_C6_alias_bound_witness :
    addAliasToNote 2 ⟨"2024-01-01T12:00:00.000Z", "12:00"⟩
      (some "---\naliases: [\"A\", \"B\"]\n---\nx") "C" = (false, none) :=
  (spec_C6_alias_bound 2 ⟨"2024-01-01T12:00:00.000Z", "12:00"⟩
    "---\naliases: [\"A\", \"B\"]\n---\nx"
    [("aliases", YamlValue.varr ["A", "B"])] "x" "C"
    (by decide) (by decide)).2 (by decide) (by decide)

/-- C10: an empty or whitespace-only new title makes the rename a
successful no-op returning the original path with no filesystem
mutation, regardless of whether the note exists or lies inside the
vault — the empty-title check precedes both checks, so this case never
yields none. -/
theorem spec_C10_rename_empty_title (fs : String → Option String)
    (inVault : String → Bool) (now : JsDate) (tempName : String)
    (maxSuffixAttempts : Nat) (notePath genericTitle : String)
    (h : genericTitle = "" ∨ jsTrim genericTitle = "") :
    renameNoteWithGenericTitle fs inVault now tempName maxSuffixAttempts
      notePath genericTitle = (some notePath, []) := by
  unfold renameNoteWithGenericTitle
  rcases h with h | h <;> rw [if_pos (by simp [h])]

/-- Witness for C10: whitespace-only title over a filesystem where the
note neither exists nor is in the vault. -/
theorem spec_C10_rename_empty_title_witness :
    renameNoteWithGenericTitle (fun _ => none) (fun _ => false)
      ⟨"2024-01-01T12:00:00.000Z", "12:00"⟩ "tmp" 5 "/outside/y.md" " " =
      (some "/outside/y.md", []) :=
  spec_C10_rename_empty_title (fun _ => none) (fun _ => false)
    ⟨"2024-01-01T12:00:00.000Z", "12:00"⟩ "tmp" 5 "/outside/y.md" " "
    (Or.inr (by decide))

/-! ## Semantic matcher claims (C3) -/

theorem isAIMatchResponse_shapes {v : JSValue} (h : isAIMatchResponse v = true) :
    ∃ m, getProp v "match" = some m ∧
      (∃ gt, getProp v "genericTitle" = some (JSValue.jstr gt)) ∧
      ((∃ q, getProp m "index" = some (JSValue.jnum q)) ∨
        getProp m "index" = some JSValue.jnull) ∧
      (∃ conf, getProp m "confidence" = some (JSValue.jstr conf)) := by
  rw [isAIMatchResponse] at h
  simp only [Bool.and_eq_true] at h
  obtain ⟨⟨_hobj, hmatch⟩, hgt⟩ := h
  split at hmatch
  · rename_i m hm
    simp only [Bool.and_eq_true] at hmatch
    obtain ⟨⟨_hmobj, hidx⟩, hconf⟩ := hmatch
    refine ⟨m, hm, ?_, ?_, ?_⟩
    · split at hgt
      · rename_i gt hg
        exact ⟨gt, hg⟩
      · exact Bool.noConfusion hgt
    · split at hidx
      · rename_i q hq
        exact Or.inl ⟨q, hq⟩
      · rename_i hq
        exact Or.inr hq
      · exact Bool.noConfusion hidx
    · split at hconf
      · rename_i conf hc
        exact ⟨conf, hc⟩
      · exact Bool.noConfusion hconf
  · exact Bool.noConfusion hmatch

/-- C3: the semantic matcher fails closed.  A non-zero exit, a spawn
error or timeout, unparseable stdout, a reply failing the structural
guard, or an out-of-bounds index each yield no match; and any match it
does return is built from a note of the candidate list. -/
theorem spec_C3_semantic_fail_closed (aiEnabled : Bool) (notes : List NoteInfo)
    (res : SpawnResult) :
    ((res.status ≠ 0 ∨ res.hasError = true) →
      findSemanticMatch aiEnabled notes res = none) ∧
    (res.stdoutJson = none → findSemanticMatch aiEnabled notes res = none) ∧
    (∀ v, res.stdoutJson = some v → isAIMatchResponse v = false →
      findSemanticMatch aiEnabled notes res = none) ∧
    (∀ v m q, res.stdoutJson = some v → getProp v "match" = some m →
      getProp m "index" = some (JSValue.jnum q) →
      (q.flt Frac.zero = true ∨ Frac.fle ⟨(notes.length : Int), 1⟩ q = true) →
      findSemanticMatch aiEnabled notes res = none) ∧
    (∀ sm, findSemanticMatch aiEnabled notes res = some sm →
      ∃ n ∈ notes, sm.path = n.path ∧ sm.category = n.category ∧ sm.title = n.title) := by
  refine ⟨?_, ?_, ?_, ?_, ?_⟩
  · intro h
    rcases h with h | h
    · have hbne : (res.status != 0) = true := bne_iff_ne.mpr h
      simp [findSemanticMatch, hbne]
    · simp [findSemanticMatch, h]
  · intro h
    simp [findSemanticMatch, parseMatchResponse, h]
  · intro v hv hguard
    simp [findSemanticMatch, parseMatchResponse, hv, hguard]
  · intro v m q hv hm hq hbound
    by_cases hg : isAIMatchResponse v = true
    · obtain ⟨m', hm', ⟨gt, hgt⟩, _hidx, ⟨conf, hconf⟩⟩ := isAIMatchResponse_shapes hg
      have hmm : m' = m := by
        rw [hm] at hm'
        exact (Option.some.injEq _ _ ▸ hm').symm
      subst hmm
      have hparse : parseMatchResponse (some v) notes = none := by
        simp only [parseMatchResponse]
        rw [if_pos hg]
        simp only [hm, hgt, hq, hconf]
        have hcond : (q.flt Frac.zero || Frac.fle ⟨(notes.length : Int), 1⟩ q) = true := by
          rcases hbound with hb | hb <;> simp [hb]
        rw [if_pos hcond]
      unfold findSemanticMatch
      split_ifs <;> first
        | rfl
        | (rw [hv]; exact hparse)
    · have hguard : isAIMatchResponse v = false := Bool.not_eq_true _ ▸ hg
      simp [findSemanticMatch, parseMatchResponse, hv, hguard]
  · intro sm hsm
    unfold findSemanticMatch at hsm
    split_ifs at hsm
    cases hj : res.stdoutJson with
    | none =>
      rw [hj] at hsm
      simp [parseMatchResponse] at hsm
    | some v =>
      rw [hj] at hsm
      simp only [parseMatchResponse] at hsm
      split_ifs at hsm with hg
      split at hsm
      · rename_i m gt _hm _hgt
        split at hsm
        · exact Option.noConfusion hsm
        · rename_i q conf _hq _hconf
          split_ifs at hsm with hb
          split at hsm
          · exact Option.noConfusion hsm
          · rename_i gtitle _hvt
            split at hsm
            · exact Option.noConfusion hsm
            · rename_i note hnote
              have hmem : note ∈ notes := by
                rw [jsIndexGet] at hnote
                split_ifs at hnote
                exact List.get?_mem hnote
              injection hsm with hfields
              exact ⟨note, hmem, by rw [← hfields], by rw [← hfields], by rw [← hfields]⟩
        · exact Option.noConfusion hsm
      · exact Option.noConfusion hsm

/-- Witness for C3: a non-zero exit status yields no match. -/
theorem spec_C3_semantic_fail_closed_witness :
    findSemanticMatch true [⟨"p", "t", "c"⟩] ⟨1, false, none⟩ = none :=
  (spec_C3_semantic_fail_closed true [⟨"p", "t", "c"⟩] ⟨1, false, none⟩).1
    (Or.inl (by decide))

/-! ## Tiered matcher lemmas (C1, C2) -/

theorem fileJaccard_den_ne_zero (iw : List String) (f : String) :
    (fileJaccard iw f).den ≠ 0 := jac_den_ne_zero _ _

theorem fileJaccard_le_one (iw : List String) (f : String) :
    (fileJaccard iw f).toRat ≤ 1 := jac_le_one _ _

theorem fileJaccard_nonneg (iw : List String) (f : String) :
    0 ≤ (fileJaccard iw f).toRat := jac_nonneg _ _

theorem clampThreshold_den_ne_zero {t : Frac} (hden : t.den ≠ 0) :
    (clampThreshold t).den ≠ 0 := by
  unfold clampThreshold jsMax0 jsMin1
  split_ifs <;> first | exact hden | decide

theorem clampThreshold_le_one {t : Frac} (hden : t.den ≠ 0) :
    (clampThreshold t).toRat ≤ 1 := by
  unfold clampThreshold jsMax0 jsMin1
  split_ifs with h1 h2 h3
  · rw [Frac.toRat_zero]; norm_num
  · exact (Frac.fle_iff hden (by decide)).mp h1 |>.trans_eq Frac.toRat_one
  · exact absurd h3 (by decide)
  · rw [Frac.toRat_one]

theorem bestFold_inv (iw : List String) (thr : Frac) (pp : String) :
    ∀ (pairs : List (String × String)) (st : Option SimilarTopicMatch × Frac),
      (st.1 = none → st.2 = Frac.zero) → (∀ m, st.1 = some m → m.score = st.2) →
      ((pairs.foldl (bestStep iw thr pp) st).1 = none →
        (pairs.foldl (bestStep iw thr pp) st).2 = Frac.zero) ∧
      (∀ m, (pairs.foldl (bestStep iw thr pp) st).1 = some m →
        m.score = (pairs.foldl (bestStep iw thr pp) st).2)
  | [], st, h1, h2 => ⟨h1, h2⟩
  | a :: rest, st, h1, h2 => by
    rw [List.foldl_cons]
    simp only [bestStep]
    split_ifs with hupd
    · exact bestFold_inv iw thr pp rest _ (by intro h; exact Option.noConfusion h)
        (by intro m hm; injection hm with hm; rw [← hm])
    · exact bestFold_inv iw thr pp rest st h1 h2

theorem bestFold_le_one (iw : List String) (thr : Frac) (pp : String) :
    ∀ (pairs : List (String × String)) (st : Option SimilarTopicMatch × Frac),
      st.2.toRat ≤ 1 →
      (pairs.foldl (bestStep iw thr pp) st).2.toRat ≤ 1
  | [], _, h => h
  | a :: rest, st, h => by
    rw [List.foldl_cons]
    simp only [bestStep]
    split_ifs with hupd
    · exact bestFold_le_one iw thr pp rest _ (fileJaccard_le_one iw a.2)
    · exact bestFold_le_one iw thr pp rest st h

theorem bestFold_mono (iw : List String) (thr : Frac) (pp : String) :
    ∀ (pairs : List (String × String)) (st : Option SimilarTopicMatch × Frac),
      st.2.den ≠ 0 →
      (st.2.toRat ≤ (pairs.foldl (bestStep iw thr pp) st).2.toRat ∧
       ((pairs.foldl (bestStep iw thr pp) st).1 = none → st.1 = none) ∧
       (pairs.foldl (bestStep iw thr pp) st).2.den ≠ 0)
  | [], st, hden => ⟨le_refl _, fun h => h, hden⟩
  | a :: rest, st, hden => by
    rw [List.foldl_cons]
    simp only [bestStep]
    split_ifs with hupd
    · have hsden := fileJaccard_den_ne_zero iw a.2
      have ih := bestFold_mono iw thr pp rest
        (some ⟨pjoin (pjoin pp a.1) a.2, a.1, fileJaccard iw a.2⟩, fileJaccard iw a.2) hsden
      have hstep : st.2.toRat ≤ (fileJaccard iw a.2).toRat := by
        simp only [Bool.and_eq_true, Bool.or_eq_true] at hupd
        rcases hupd.2 with h | h
        · exact le_of_lt ((Frac.flt_iff hden hsden).mp h)
        · exact le_of_eq ((Frac.feq_iff hsden hden).mp h.1).symm
      refine ⟨hstep.trans ih.1, fun h => absurd (ih.2.1 h) (by simp), ih.2.2⟩
    · exact bestFold_mono iw thr pp rest st hden

theorem bestStep_ok (iw : List String) (thr : Frac) (pp : String)
    (st : Option SimilarTopicMatch × Frac) (a : String × String)
    (hden : st.2.den ≠ 0) (hz : st.1 = none → st.2 = Frac.zero)
    (hsc : ∀ m, st.1 = some m → m.score = st.2) :
    (bestStep iw thr pp st a).2.den ≠ 0 ∧
    ((bestStep iw thr pp st a).1 = none → (bestStep iw thr pp st a).2 = Frac.zero) ∧
    (∀ m, (bestStep iw thr pp st a).1 = some m → m.score = (bestStep iw thr pp st a).2) := by
  simp only [bestStep]
  split_ifs with h
  · refine ⟨fileJaccard_den_ne_zero iw a.2, ?_, ?_⟩
    · simp
    · intro m hm
      injection hm with hm
      rw [← hm]
  · exact ⟨hden, hz, hsc⟩

theorem bestFold_hit (iw : List String) (thr : Frac) (pp : String) :
    ∀ (pairs : List (String × String)) (st : Option SimilarTopicMatch × Frac)
      (cf : String × String),
      st.2.den ≠ 0 → (st.1 = none → st.2 = Frac.zero) →
      (∀ m, st.1 = some m → m.score = st.2) →
      cf ∈ pairs → thr.fle (fileJaccard iw cf.2) = true →
      (pairs.foldl (bestStep iw thr pp) st).1 ≠ none ∧
      (fileJaccard iw cf.2).toRat ≤ (pairs.foldl (bestStep iw thr pp) st).2.toRat
  | [], _, _, _, _, _, hmem, _ => absurd hmem (List.not_mem_nil _)
  | a :: rest, st, cf, hden, hz, hsc, hmem, hq => by
    rw [List.foldl_cons]
    rcases List.mem_cons.mp hmem with heq | hmem'
    · subst heq
      set s := fileJaccard iw cf.2 with hs
      have hsden : s.den ≠ 0 := fileJaccard_den_ne_zero iw cf.2
      simp only [bestStep, ← hs]
      split_ifs with hupd
      · have ih := bestFold_mono iw thr pp rest
          (some ⟨pjoin (pjoin pp cf.1) cf.2, cf.1, s⟩, s) hsden
        exact ⟨fun h => absurd (ih.2.1 h) (by simp), ih.1⟩
      · have hnflt : ¬ (st.2.flt s = true) := by
          intro hflt
          exact hupd (by
            simp only [Bool.and_eq_true, Bool.or_eq_true]
            exact ⟨hq, Or.inl hflt⟩)
        have hle : s.toRat ≤ st.2.toRat := by
          by_contra hgt
          push_neg at hgt
          exact hnflt ((Frac.flt_iff hden hsden).mpr hgt)
        have hsome : st.1 ≠ none := by
          intro hnone
          have hsz : s.toRat = st.2.toRat := by
            have h0 : st.2.toRat = 0 := by rw [hz hnone, Frac.toRat_zero]
            have hpos := fileJaccard_nonneg iw cf.2
            rw [← hs] at hpos
            linarith
          have hfeq : s.feq st.2 = true := (Frac.feq_iff hsden hden).mpr hsz
          exact hupd (by
            simp only [Bool.and_eq_true, Bool.or_eq_true]
            refine ⟨hq, Or.inr ⟨hfeq, Or.inl ?_⟩⟩
            rw [hnone]
            rfl)
        have ih := bestFold_mono iw thr pp rest st hden
        exact ⟨fun h => absurd (ih.2.1 h) hsome, hle.trans ih.1⟩
    · obtain ⟨hd2, hz2, hsc2⟩ := bestStep_ok iw thr pp st a hden hz hsc
      exact bestFold_hit iw thr pp rest (bestStep iw thr pp st a) cf hd2 hz2 hsc2 hmem' hq

theorem findCore_exact (aliasesOf : String → List String) (projectPath title : String)
    (threshold : Frac) (pairs : List (String × String)) (cf : String × String)
    (hthr : threshold.den ≠ 0) (htitle : jsTrim title ≠ "")
    (hmem : cf ∈ pairs)
    (hslug : stripMdSuffix cf.2 = strTake 50 (slugifyProjectName title)) :
    ∃ m, findSimilarCore aliasesOf true projectPath title threshold pairs = some m ∧
      m.score.toRat = 1 := by
  have htne : title ≠ "" := by
    intro he
    rw [he] at htitle
    exact htitle rfl
  have hcond1 : ¬ ((title = "" || jsTrim title = "") = true) := by
    simp [htne, htitle]
  simp only [findSimilarCore]
  rw [if_neg hcond1, if_neg (by decide : ¬ ((!true) = true))]
  by_cases hlen :
      (extractSignificantWords (strTake 50 (slugifyProjectName title))).length < 2
  · rw [if_pos hlen]
    have hfind : (pairs.find? (fun cand =>
        stripMdSuffix cand.2 == strTake 50 (slugifyProjectName title))).isSome := by
      rw [List.find?_isSome]
      exact ⟨cf, hmem, beq_iff_eq.mpr hslug⟩
    obtain ⟨cf', hcf'⟩ := Option.isSome_iff_exists.mp hfind
    rw [hcf']
    exact ⟨_, rfl, Frac.toRat_one⟩
  · rw [if_neg hlen]
    have hlen2 : 2 ≤ (extractSignificantWords (strTake 50 (slugifyProjectName title))).length :=
      le_of_not_lt hlen
    have hiwne : extractSignificantWords (strTake 50 (slugifyProjectName title)) ≠ [] := by
      intro he
      rw [he] at hlen2
      simp at hlen2
    have hscore : (fileJaccard
        (extractSignificantWords (strTake 50 (slugifyProjectName title))) cf.2).toRat = 1 := by
      rw [fileJaccard, hslug]
      exact jac_self_toRat_one _ hiwne
    have hq : (clampThreshold threshold).fle (fileJaccard
        (extractSignificantWords (strTake 50 (slugifyProjectName title))) cf.2) = true :=
      (Frac.fle_iff (clampThreshold_den_ne_zero hthr) (fileJaccard_den_ne_zero _ _)).mpr
        (by rw [hscore]; exact clampThreshold_le_one hthr)
    obtain ⟨hne, hge⟩ := bestFold_hit
      (extractSignificantWords (strTake 50 (slugifyProjectName title)))
      (clampThreshold threshold) projectPath pairs (none, Frac.zero) cf
      (by decide) (fun _ => rfl) (fun m hm => Option.noConfusion hm) hmem hq
    have hne' : (bestPass (extractSignificantWords (strTake 50 (slugifyProjectName title)))
        (clampThreshold threshold) projectPath pairs).1 ≠ none := hne
    obtain ⟨m, hm⟩ := Option.ne_none_iff_exists'.mp hne'
    rw [hm]
    refine ⟨m, rfl, ?_⟩
    have hinv := bestFold_inv
      (extractSignificantWords (strTake 50 (slugifyProjectName title)))
      (clampThreshold threshold) projectPath pairs (none, Frac.zero)
      (fun _ => rfl) (fun m hm => Option.noConfusion hm)
    have hms : m.score = (bestPass (extractSignificantWords (strTake 50 (slugifyProjectName title)))
        (clampThreshold threshold) projectPath pairs).2 := hinv.2 m hm
    have hle1 := bestFold_le_one
      (extractSignificantWords (strTake 50 (slugifyProjectName title)))
      (clampThreshold threshold) projectPath pairs (none, Frac.zero)
      (by rw [Frac.toRat_zero]; norm_num)
    rw [hms]
    rw [hscore] at hge
    exact le_antisymm hle1 hge

/-- C1 (amended): when the normalized, truncated title slug exactly
equals some candidate's slug, both matcher variants return a match with
score 1.0.  There is no short-circuiting exact tier for inputs with two
or more significant tokens, so ties at score 1.0 are broken by
ascending filename — the returned candidate need not be the exact-slug
one (see the counterexample); for inputs with fewer than two
significant tokens the exact-slug scan alone applies. -/
theorem spec_C1_exact_match (aliasesOf : String → List String)
    (projectPath title : String) (threshold : Frac)
    (hthr : threshold.den ≠ 0) (htitle : jsTrim title ≠ "") :
    (∀ (category : String) (files : List String) (f : String),
      f ∈ files → stripMdSuffix f = strTake 50 (slugifyProjectName title) →
      ∃ m, findSimilarTopicInCategory aliasesOf true projectPath category title
        threshold files = some m ∧ m.score.toRat = 1) ∧
    (∀ (filesOf : String → List String) (cat : String) (f : String),
      cat ∈ CATEGORIES → f ∈ filesOf cat →
      stripMdSuffix f = strTake 50 (slugifyProjectName title) →
      ∃ m, findSimilarTopicAcrossCategories aliasesOf true projectPath title
        threshold filesOf = some m ∧ m.score.toRat = 1) := by
  constructor
  · intro category files f hmem hslug
    exact findCore_exact aliasesOf projectPath title threshold _ (category, f)
      hthr htitle (List.mem_map_of_mem _ hmem) hslug
  · intro filesOf cat f hcat hmem hslug
    refine findCore_exact aliasesOf projectPath title threshold _ (cat, f)
      hthr htitle ?_ hslug
    exact List.mem_flatMap.mpr ⟨cat, hcat, List.mem_map_of_mem _ hmem⟩

/-- Witness for C1 (amended) at the spec's own scenario. -/
theorem spec_C1_exact_match_witness :
    ∃ m, findSimilarTopicInCategory (fun _ => []) true "p" "errors"
      "Authentication Bug" ⟨6, 10⟩ ["authentication-bug.md"] = some m ∧
      m.score.toRat = 1 :=
  (spec_C1_exact_match (fun _ => []) "p" "Authentication Bug" ⟨6, 10⟩
    (by decide) (by decide)).1 "errors" ["authentication-bug.md"]
    "authentication-bug.md" (by decide) (by decide)

/-- Counterexample to C1 as stated: with threshold 0.6 and candidates
an-authentication-bug.md and authentication-bug.md, the title
Authentication Bug normalizes exactly to the second candidate's slug,
yet the matcher returns the first candidate (also scoring 1.0 because
the stopword an is discarded) by the ascending-filename tie-break — not
the exact-slug candidate. -/
theorem spec_C1_counterexample :
    "authentication-bug.md" ∈ ["an-authentication-bug.md", "authentication-bug.md"] ∧
    stripMdSuffix "authentication-bug.md" =
      strTake 50 (slugifyProjectName "Authentication Bug") ∧
    findSimilarTopicInCategory (fun _ => []) true "p" "errors" "Authentication Bug"
      ⟨6, 10⟩ ["an-authentication-bug.md", "authentication-bug.md"] =
      some ⟨"p/errors/an-authentication-bug.md", "errors", ⟨2, 2⟩⟩ ∧
    pjoin (pjoin "p" "errors") "an-authentication-bug.md" ≠
      pjoin (pjoin "p" "errors") "authentication-bug.md" :=
  ⟨by decide, by decide, by decide, by decide⟩

/-! ## Determinism under reordering (C2): order and path lemmas -/

theorem jsStrLtAux_trichot : ∀ (a b : List Char),
    jsStrLtAux a b = true ∨ a = b ∨ jsStrLtAux b a = true
  | [], [] => by simp [jsStrLtAux]
  | [], _ :: _ => by simp [jsStrLtAux]
  | _ :: _, [] => by simp [jsStrLtAux]
  | a :: as, b :: bs => by
    by_cases h1 : a < b
    · left; simp [jsStrLtAux, h1]
    · by_cases h2 : b < a
      · right; right; simp [jsStrLtAux, h1, h2]
      · have hab : a = b := le_antisymm (not_lt.mp h2) (not_lt.mp h1)
        rcases jsStrLtAux_trichot as bs with h | h | h
        · left; simp [jsStrLtAux, h1, h2, h]
        · right; left; rw [hab, h]
        · right; right; simp [jsStrLtAux, hab, lt_irrefl, h]

theorem jsStrLtAux_asymm : ∀ (a b : List Char),
    jsStrLtAux a b = true → jsStrLtAux b a = false
  | [], [] => by simp [jsStrLtAux]
  | [], _ :: _ => by intro _; simp [jsStrLtAux]
  | _ :: _, [] => by intro h; simp [jsStrLtAux] at h
  | a :: as, b :: bs => by
    intro h
    by_cases h1 : a < b
    · simp [jsStrLtAux, asymm h1, h1]
    · by_cases h2 : b < a
      · simp [jsStrLtAux, h1, h2] at h
      · have hab : a = b := le_antisymm (not_lt.mp h2) (not_lt.mp h1)
        simp only [jsStrLtAux, h1, h2, if_false] at h
        simp only [jsStrLtAux, hab, lt_irrefl, if_false]
        exact jsStrLtAux_asymm as bs h

theorem jsStrLtAux_trans : ∀ (a b c : List Char),
    jsStrLtAux a b = true → jsStrLtAux b c = true → jsStrLtAux a c = true
  | [], b, c => by
    intro h1 h2
    cases c with
    | cons _ _ => simp [jsStrLtAux]
    | nil =>
      cases b with
      | nil => simp [jsStrLtAux] at h2
      | cons _ _ => simp [jsStrLtAux] at h2
  | _ :: _, [], _ => by intro h1 _; simp [jsStrLtAux] at h1
  | _ :: _, _ :: _, [] => by intro _ h2; simp [jsStrLtAux] at h2
  | a :: as, b :: bs, c :: cs => by
    intro h1 h2
    by_cases hab : a < b
    · by_cases hbc : b < c
      · simp [jsStrLtAux, lt_trans hab hbc]
      · by_cases hcb : c < b
        · simp only [jsStrLtAux, hbc, hcb, if_false, if_true] at h2
          simp at h2
        · have hbc' : b = c := le_antisymm (not_lt.mp hcb) (not_lt.mp hbc)
          subst hbc'
          simp [jsStrLtAux, hab]
    · by_cases hba : b < a
      · simp only [jsStrLtAux, hab, hba, if_false, if_true] at h1
        simp at h1
      · have hab' : a = b := le_antisymm (not_lt.mp hba) (not_lt.mp hab)
        subst hab'
        simp only [jsStrLtAux, lt_irrefl, if_false] at h1
        by_cases hac : a < c
        · simp [jsStrLtAux, hac]
        · by_cases hca : c < a
          · simp only [jsStrLtAux, hac, hca, if_false, if_true] at h2
            simp at h2
          · have hac' : a = c := le_antisymm (not_lt.mp hca) (not_lt.mp hac)
            subst hac'
            simp only [jsStrLtAux, lt_irrefl, if_false] at h2 ⊢
            exact jsStrLtAux_trans as bs cs h1 h2

theorem jsStrLt_trichot (a b : String) :
    jsStrLt a b = true ∨ a = b ∨ jsStrLt b a = true := by
  rcases jsStrLtAux_trichot a.data b.data with h | h | h
  · exact Or.inl h
  · exact Or.inr (Or.inl (by cases a; cases b; exact congrArg String.mk h))
  · exact Or.inr (Or.inr h)

theorem jsStrLt_asymm {a b : String} (h : jsStrLt a b = true) :
    jsStrLt b a = false := jsStrLtAux_asymm a.data b.data h

theorem jsStrLt_trans {a b c : String} (h1 : jsStrLt a b = true)
    (h2 : jsStrLt b c = true) : jsStrLt a c = true :=
  jsStrLtAux_trans a.data b.data c.data h1 h2

theorem takeWhile_append_stop {p : Char → Bool} {d : Char} (hd : p d = false) :
    ∀ (l₁ l₂ : List Char), (∀ c ∈ l₁, p c = true) →
      (l₁ ++ d :: l₂).takeWhile p = l₁
  | [], l₂, _ => by
    rw [List.nil_append, List.takeWhile_cons_of_neg (by rw [hd]; exact Bool.false_ne_true)]
  | c :: t, l₂, h => by
    have hc : p c = true := h c (List.mem_cons_self c t)
    rw [List.cons_append, List.takeWhile_cons_of_pos hc,
      takeWhile_append_stop hd t l₂ (fun x hx => h x (List.mem_cons_of_mem _ hx))]

theorem jsBasename_pjoin {f : String} (hf : ¬ '/' ∈ f.data) (d : String) :
    jsBasename (pjoin d f) = f := by
  have hdata : (d ++ "/" ++ f).data = (d.data ++ ['/']) ++ f.data := by
    rw [String.data_append, String.data_append]
  rw [jsBasename, pjoin, afterLastSlash, hdata, List.reverse_append]
  have hA : (d.data ++ ['/']).reverse = '/' :: d.data.reverse := by
    rw [List.reverse_append]
    rfl
  have hall : ∀ c ∈ f.data.reverse, (fun c => decide (c ≠ '/')) c = true := by
    intro c hc
    rw [List.mem_reverse] at hc
    simp only [decide_eq_true_eq, ne_eq]
    intro he
    exact hf (he ▸ hc)
  rw [hA, takeWhile_append_stop (by simp) f.data.reverse d.data.reverse hall,
    List.reverse_reverse]

theorem jsEndsWith_md_decomp {f : String} (h : jsEndsWith f ".md" = true) :
    f.data = (stripMdSuffix f).data ++ ['.', 'm', 'd'] := by
  have hsuf : ['.', 'm', 'd'] <:+ f.data := by
    rw [jsEndsWith, List.isSuffixOf] at h
    exact List.reverse_prefix.mp (List.isPrefixOf_iff_prefix.mp h)
  obtain ⟨pre, hpre⟩ := hsuf
  have hstrip : stripMdSuffix f = String.mk pre := by
    rw [stripMdSuffix, if_pos h, strDropRight]
    congr 1
    rw [← hpre]
    have hl : (pre ++ ['.', 'm', 'd']).length - 3 = pre.length := by simp
    rw [hl, List.take_left' rfl]
  rw [hstrip, ← hpre]

theorem stripMd_inj {f₁ f₂ : String} (h1 : jsEndsWith f₁ ".md" = true)
    (h2 : jsEndsWith f₂ ".md" = true)
    (heq : stripMdSuffix f₁ = stripMdSuffix f₂) : f₁ = f₂ := by
  have hd : f₁.data = f₂.data := by
    rw [jsEndsWith_md_decomp h1, jsEndsWith_md_decomp h2, heq]
  cases f₁
  cases f₂
  exact congrArg String.mk hd

theorem find?_eq_some_of_unique {α : Type _} (p : α → Bool) :
    ∀ (l : List α) (a : α), a ∈ l → p a = true →
      (∀ b ∈ l, p b = true → b = a) → l.find? p = some a
  | [], a, hmem, _, _ => absurd hmem (List.not_mem_nil a)
  | x :: t, a, hmem, hpa, huniq => by
    by_cases hx : p x = true
    · rw [List.find?_cons_of_pos _ hx, huniq x (List.mem_cons_self x t) hx]
    · rw [List.find?_cons_of_neg _ hx]
      have hmem' : a ∈ t := by
        rcases List.mem_cons.mp hmem with he | hm
        · subst he
          exact absurd hpa hx
        · exact hm
      exact find?_eq_some_of_unique p t a hmem' hpa
        (fun b hb => huniq b (List.mem_cons_of_mem _ hb))

theorem find?_perm_of_unique {α : Type _} (p : α → Bool) {l₁ l₂ : List α}
    (hperm : l₁.Perm l₂)
    (huniq : ∀ b ∈ l₁, ∀ c ∈ l₁, p b = true → p c = true → b = c) :
    l₁.find? p = l₂.find? p := by
  by_cases hex : ∃ a, a ∈ l₁ ∧ p a = true
  · obtain ⟨a, hmem, hpa⟩ := hex
    rw [find?_eq_some_of_unique p l₁ a hmem hpa
        (fun b hb hpb => huniq b hb a hmem hpb hpa),
      find?_eq_some_of_unique p l₂ a (hperm.mem_iff.mp hmem) hpa
        (fun b hb hpb => huniq b (hperm.mem_iff.mpr hb) a hmem hpb hpa)]
  · push_neg at hex
    rw [List.find?_eq_none.mpr (fun x hx => hex x hx),
      List.find?_eq_none.mpr (fun x hx => hex x (hperm.mem_iff.mpr hx))]

theorem foldl_perm_of_inv {α β : Type _} (Inv : β → Prop) (f : β → α → β)
    (hInv : ∀ b a, Inv b → Inv (f b a)) :
    ∀ {l₁ l₂ : List α}, l₁.Perm l₂ →
      (∀ b, Inv b → ∀ x ∈ l₁, ∀ y ∈ l₁, f (f b x) y = f (f b y) x) →
      ∀ b, Inv b → l₁.foldl f b = l₂.foldl f b := by
  intro l₁ l₂ hperm
  induction hperm with
  | nil => intro _ b _; rfl
  | cons a h ih =>
    intro hcomm b hb
    rw [List.foldl_cons, List.foldl_cons]
    exact ih (fun b hb x hx y hy =>
      hcomm b hb x (List.mem_cons_of_mem _ hx) y (List.mem_cons_of_mem _ hy))
      (f b a) (hInv b a hb)
  | swap x y l =>
    intro hcomm b hb
    rw [List.foldl_cons, List.foldl_cons, List.foldl_cons, List.foldl_cons,
      hcomm b hb y (List.mem_cons_self y _) x
        (List.mem_cons_of_mem _ (List.mem_cons_self x l))]
  | trans h12 h23 ih12 ih23 =>
    intro hcomm b hb
    rw [ih12 hcomm b hb, ih23 (fun b hb x hx y hy =>
      hcomm b hb x (h12.mem_iff.mpr hx) y (h12.mem_iff.mpr hy)) b hb]

theorem goodScanFile_props {f : String} (h : goodScanFile f = true) :
    jsEndsWith f ".md" = true ∧ ¬ '/' ∈ f.data := by
  rw [goodScanFile, Bool.and_eq_true] at h
  refine ⟨h.1, fun hm => ?_⟩
  have hc : f.data.contains '/' = true :=
    List.contains_iff_exists_mem_beq.mpr ⟨'/', hm, by simp⟩
  rw [hc] at h
  exact absurd h.2 (by decide)

theorem bestCond_iff (iw : List String) (thr : Frac)
    (st : Option SimilarTopicMatch × Frac) (cand : String × String)
    (hden : st.2.den ≠ 0) :
    ((thr.fle (fileJaccard iw cand.2) &&
      (st.2.flt (fileJaccard iw cand.2) ||
        ((fileJaccard iw cand.2).feq st.2 &&
          (st.1.isNone ||
            (match st.1 with
             | none => true
             | some m => jsStrLt cand.2 (jsBasename m.path)))))) = true)
    ↔ (thr.fle (fileJaccard iw cand.2) = true ∧
       (st.2.toRat < (fileJaccard iw cand.2).toRat ∨
        ((fileJaccard iw cand.2).toRat = st.2.toRat ∧
         (st.1 = none ∨
          ∃ m, st.1 = some m ∧ jsStrLt cand.2 (jsBasename m.path) = true)))) := by
  have hsden := fileJaccard_den_ne_zero iw cand.2
  cases hst : st.1 with
  | none =>
    simp only [hst, Bool.and_eq_true, Bool.or_eq_true, Option.isNone_none,
      Frac.flt_iff hden hsden, Frac.feq_iff hsden hden]
    tauto
  | some m =>
    simp only [hst, Bool.and_eq_true, Bool.or_eq_true, Option.isNone_some,
      Frac.flt_iff hden hsden, Frac.feq_iff hsden hden, Bool.false_eq_true,
      false_or]
    constructor
    · rintro ⟨h1, h2 | ⟨h3, h4⟩⟩
      · exact ⟨h1, Or.inl h2⟩
      · exact ⟨h1, Or.inr ⟨h3, Or.inr ⟨m, rfl, h4⟩⟩⟩
    · rintro ⟨h1, h2 | ⟨h3, h4 | ⟨m', hm', h5⟩⟩⟩
      · exact ⟨h1, Or.inl h2⟩
      · exact absurd h4 (by simp)
      · injection hm' with hm'
        subst hm'
        exact ⟨h1, Or.inr ⟨h3, h5⟩⟩

theorem bestStep_eq_update {iw : List String} {thr : Frac} {pp : String}
    {st : Option SimilarTopicMatch × Frac} {cand : String × String}
    (hden : st.2.den ≠ 0)
    (h : thr.fle (fileJaccard iw cand.2) = true ∧
       (st.2.toRat < (fileJaccard iw cand.2).toRat ∨
        ((fileJaccard iw cand.2).toRat = st.2.toRat ∧
         (st.1 = none ∨
          ∃ m, st.1 = some m ∧ jsStrLt cand.2 (jsBasename m.path) = true)))) :
    bestStep iw thr pp st cand =
      (some ⟨pjoin (pjoin pp cand.1) cand.2, cand.1, fileJaccard iw cand.2⟩,
       fileJaccard iw cand.2) := by
  simp only [bestStep]
  rw [if_pos ((bestCond_iff iw thr st cand hden).mpr h)]

theorem bestStep_eq_skip {iw : List String} {thr : Frac} {pp : String}
    {st : Option SimilarTopicMatch × Frac} {cand : String × String}
    (hden : st.2.den ≠ 0)
    (h : ¬ (thr.fle (fileJaccard iw cand.2) = true ∧
       (st.2.toRat < (fileJaccard iw cand.2).toRat ∨
        ((fileJaccard iw cand.2).toRat = st.2.toRat ∧
         (st.1 = none ∨
          ∃ m, st.1 = some m ∧ jsStrLt cand.2 (jsBasename m.path) = true))))) :
    bestStep iw thr pp st cand = st := by
  simp only [bestStep]
  rw [if_neg (fun hc => h ((bestCond_iff iw thr st cand hden).mp hc))]

theorem bestStep_den {iw : List String} {thr : Frac} {pp : String}
    {st : Option SimilarTopicMatch × Frac} {cand : String × String}
    (hden : st.2.den ≠ 0) : (bestStep iw thr pp st cand).2.den ≠ 0 := by
  simp only [bestStep]
  split_ifs
  · exact fileJaccard_den_ne_zero iw cand.2
  · exact hden

theorem bestStep_comm_aux (iw : List String) (thr : Frac) (pp : String)
    (z : Option SimilarTopicMatch × Frac) (x y : String × String)
    (hx : ¬ '/' ∈ x.2.data) (hy : ¬ '/' ∈ y.2.data)
    (hden : z.2.den ≠ 0)
    (htx : thr.fle (fileJaccard iw x.2) = true)
    (hty : thr.fle (fileJaccard iw y.2) = true)
    (hbeats : (fileJaccard iw y.2).toRat < (fileJaccard iw x.2).toRat ∨
      ((fileJaccard iw x.2).toRat = (fileJaccard iw y.2).toRat ∧
        jsStrLt x.2 y.2 = true)) :
    bestStep iw thr pp (bestStep iw thr pp z x) y =
    bestStep iw thr pp (bestStep iw thr pp z y) x := by
  have hsxden := fileJaccard_den_ne_zero iw x.2
  have hsyden := fileJaccard_den_ne_zero iw y.2
  have hbx : jsBasename (pjoin (pjoin pp x.1) x.2) = x.2 := jsBasename_pjoin hx _
  have hby : jsBasename (pjoin (pjoin pp y.1) y.2) = y.2 := jsBasename_pjoin hy _
  by_cases hCx : (z.2.toRat < (fileJaccard iw x.2).toRat ∨
      ((fileJaccard iw x.2).toRat = z.2.toRat ∧
       (z.1 = none ∨ ∃ m, z.1 = some m ∧ jsStrLt x.2 (jsBasename m.path) = true)))
  · rw [bestStep_eq_update hden ⟨htx, hCx⟩]
    have hskip : bestStep iw thr pp
        (some ⟨pjoin (pjoin pp x.1) x.2, x.1, fileJaccard iw x.2⟩, fileJaccard iw x.2) y =
        (some ⟨pjoin (pjoin pp x.1) x.2, x.1, fileJaccard iw x.2⟩, fileJaccard iw x.2) := by
      apply bestStep_eq_skip hsxden
      rintro ⟨-, h2 | ⟨h3, h4 | ⟨m, hm, h5⟩⟩⟩
      · rcases hbeats with hlt | ⟨heq, _⟩
        · exact lt_asymm hlt h2
        · rw [heq] at h2; exact lt_irrefl _ h2
      · exact Option.noConfusion h4
      · have hmm : (⟨pjoin (pjoin pp x.1) x.2, x.1, fileJaccard iw x.2⟩ :
            SimilarTopicMatch) = m := Option.some.inj hm
        have h5' : jsStrLt y.2 x.2 = true := by
          subst hmm
          rw [← hbx]
          exact h5
        rcases hbeats with hlt | ⟨heq, hstr⟩
        · rw [h3] at hlt; exact lt_irrefl _ hlt
        · rw [jsStrLt_asymm hstr] at h5'
          exact Bool.false_ne_true h5'
    rw [hskip]
    by_cases hCy : (z.2.toRat < (fileJaccard iw y.2).toRat ∨
        ((fileJaccard iw y.2).toRat = z.2.toRat ∧
         (z.1 = none ∨ ∃ m, z.1 = some m ∧ jsStrLt y.2 (jsBasename m.path) = true)))
    · rw [bestStep_eq_update hden ⟨hty, hCy⟩]
      have hupd : bestStep iw thr pp
          (some ⟨pjoin (pjoin pp y.1) y.2, y.1, fileJaccard iw y.2⟩, fileJaccard iw y.2) x =
          (some ⟨pjoin (pjoin pp x.1) x.2, x.1, fileJaccard iw x.2⟩, fileJaccard iw x.2) := by
        apply bestStep_eq_update hsyden
        refine ⟨htx, ?_⟩
        rcases hbeats with hlt | ⟨heq, hstr⟩
        · exact Or.inl hlt
        · refine Or.inr ⟨heq, Or.inr ⟨_, rfl, ?_⟩⟩
          rw [hby]
          exact hstr
      rw [hupd]
    · rw [bestStep_eq_skip hden (fun hc => hCy hc.2),
        bestStep_eq_update hden ⟨htx, hCx⟩]
  · rw [bestStep_eq_skip hden (fun hc => hCx hc.2)]
    by_cases hCy : (z.2.toRat < (fileJaccard iw y.2).toRat ∨
        ((fileJaccard iw y.2).toRat = z.2.toRat ∧
         (z.1 = none ∨ ∃ m, z.1 = some m ∧ jsStrLt y.2 (jsBasename m.path) = true)))
    · exfalso
      apply hCx
      rcases hCy with h2 | ⟨h3, h4⟩
      · rcases hbeats with hlt | ⟨heq, _⟩
        · exact Or.inl (h2.trans hlt)
        · refine Or.inl ?_
          rw [heq]
          exact h2
      · rcases hbeats with hlt | ⟨heq, hstr⟩
        · refine Or.inl ?_
          rw [← h3]
          exact hlt
        · refine Or.inr ⟨heq.trans h3, ?_⟩
          rcases h4 with h4 | ⟨m, hm, h5⟩
          · exact Or.inl h4
          · exact Or.inr ⟨m, hm, jsStrLt_trans hstr h5⟩
    · rw [bestStep_eq_skip hden (fun hc => hCy hc.2),
        bestStep_eq_skip hden (fun hc => hCx hc.2)]

theorem bestStep_comm (iw : List String) (thr : Frac) (pp : String)
    (z : Option SimilarTopicMatch × Frac) (x y : String × String)
    (hx : ¬ '/' ∈ x.2.data) (hy : ¬ '/' ∈ y.2.data)
    (hxy : x.2 = y.2 → x = y) (hden : z.2.den ≠ 0) :
    bestStep iw thr pp (bestStep iw thr pp z x) y =
    bestStep iw thr pp (bestStep iw thr pp z y) x := by
  by_cases hxeq : x = y
  · rw [hxeq]
  by_cases htx : thr.fle (fileJaccard iw x.2) = true
  · by_cases hty : thr.fle (fileJaccard iw y.2) = true
    · rcases lt_trichotomy (fileJaccard iw x.2).toRat (fileJaccard iw y.2).toRat with h | h | h
      · exact (bestStep_comm_aux iw thr pp z y x hy hx hden hty htx (Or.inl h)).symm
      · have hne : x.2 ≠ y.2 := fun he => hxeq (hxy he)
        rcases jsStrLt_trichot x.2 y.2 with hs | hs | hs
        · exact bestStep_comm_aux iw thr pp z x y hx hy hden htx hty (Or.inr ⟨h, hs⟩)
        · exact absurd hs hne
        · exact (bestStep_comm_aux iw thr pp z y x hy hx hden hty htx
            (Or.inr ⟨h.symm, hs⟩)).symm
      · exact bestStep_comm_aux iw thr pp z x y hx hy hden htx hty (Or.inl h)
    · have h1 : bestStep iw thr pp z y = z :=
        bestStep_eq_skip hden (fun hc => hty hc.1)
      have hd2 : (bestStep iw thr pp z x).2.den ≠ 0 := bestStep_den hden
      have h2 : bestStep iw thr pp (bestStep iw thr pp z x) y = bestStep iw thr pp z x :=
        bestStep_eq_skip hd2 (fun hc => hty hc.1)
      rw [h1, h2]
  · have h1 : bestStep iw thr pp z x = z :=
      bestStep_eq_skip hden (fun hc => htx hc.1)
    have hd2 : (bestStep iw thr pp z y).2.den ≠ 0 := bestStep_den hden
    have h2 : bestStep iw thr pp (bestStep iw thr pp z y) x = bestStep iw thr pp z y :=
      bestStep_eq_skip hd2 (fun hc => htx hc.1)
    rw [h1, h2]

theorem bestPass_perm_core (iw : List String) (thr : Frac) (pp : String)
    {pairs₁ pairs₂ : List (String × String)} (hperm : pairs₁.Perm pairs₂)
    (hgood : ∀ p ∈ pairs₁, goodScanFile p.2 = true)
    (hinj : ∀ p ∈ pairs₁, ∀ q ∈ pairs₁, p.2 = q.2 → p = q)
    (st : Option SimilarTopicMatch × Frac) (hden : st.2.den ≠ 0) :
    pairs₁.foldl (bestStep iw thr pp) st = pairs₂.foldl (bestStep iw thr pp) st :=
  foldl_perm_of_inv (fun b => b.2.den ≠ 0) (bestStep iw thr pp)
    (fun _ _ h => bestStep_den h) hperm
    (fun b hb p hp q hq => bestStep_comm iw thr pp b p q
      (goodScanFile_props (hgood p hp)).2 (goodScanFile_props (hgood q hq)).2
      (hinj p hp q hq) hb)
    st hden

theorem bestPass_flatMap (iw : List String) (thr : Frac) (pp : String)
    (f₁ f₂ : String → List String)
    (hperm : ∀ c, (f₁ c).Perm (f₂ c))
    (hgood : ∀ c, ∀ f ∈ f₁ c, goodScanFile f = true) :
    ∀ (cats : List String) (st : Option SimilarTopicMatch × Frac), st.2.den ≠ 0 →
      (cats.flatMap (fun c => (f₁ c).map (fun f => (c, f)))).foldl (bestStep iw thr pp) st =
      (cats.flatMap (fun c => (f₂ c).map (fun f => (c, f)))).foldl (bestStep iw thr pp) st
  | [], _, _ => rfl
  | c :: cs, st, hden => by
    rw [List.flatMap_cons, List.flatMap_cons, List.foldl_append, List.foldl_append]
    have hblock : ((f₁ c).map (fun f => (c, f))).foldl (bestStep iw thr pp) st =
        ((f₂ c).map (fun f => (c, f))).foldl (bestStep iw thr pp) st :=
      bestPass_perm_core iw thr pp ((hperm c).map _)
        (fun p hp => by
          obtain ⟨f, hf, rfl⟩ := List.mem_map.mp hp
          exact hgood c f hf)
        (fun p hp q hq he => by
          obtain ⟨fp, hfp, rfl⟩ := List.mem_map.mp hp
          obtain ⟨fq, hfq, rfl⟩ := List.mem_map.mp hq
          exact congrArg (fun f => (c, f)) he)
        st hden
    rw [hblock]
    exact bestPass_flatMap iw thr pp f₁ f₂ hperm hgood cs _
      ((bestFold_mono iw thr pp _ st hden).2.2)

theorem find?_flatMap_perm (pr : String × String → Bool) (f₁ f₂ : String → List String)
    (hperm : ∀ c, (f₁ c).Perm (f₂ c))
    (huniq : ∀ c, ∀ p ∈ (f₁ c).map (fun f => (c, f)), ∀ q ∈ (f₁ c).map (fun f => (c, f)),
      pr p = true → pr q = true → p = q) :
    ∀ (cats : List String),
      (cats.flatMap (fun c => (f₁ c).map (fun f => (c, f)))).find? pr =
      (cats.flatMap (fun c => (f₂ c).map (fun f => (c, f)))).find? pr
  | [] => rfl
  | c :: cs => by
    rw [List.flatMap_cons, List.flatMap_cons, List.find?_append, List.find?_append,
      find?_perm_of_unique pr ((hperm c).map _) (huniq c),
      find?_flatMap_perm pr f₁ f₂ hperm huniq cs]

theorem findCore_perm (aliasesOf : String → List String) (pe : Bool)
    (pp title : String) (threshold : Frac)
    {pairs₁ pairs₂ : List (String × String)} (hperm : pairs₁.Perm pairs₂)
    (hgood : ∀ p ∈ pairs₁, goodScanFile p.2 = true)
    (hinj : ∀ p ∈ pairs₁, ∀ q ∈ pairs₁, p.2 = q.2 → p = q)
    (hnot3 : (extractSignificantWords (strTake 50 (slugifyProjectName title))).length < 2 ∨
      (bestPass (extractSignificantWords (strTake 50 (slugifyProjectName title)))
        (clampThreshold threshold) pp pairs₁).1 ≠ none) :
    findSimilarCore aliasesOf pe pp title threshold pairs₁ =
    findSimilarCore aliasesOf pe pp title threshold pairs₂ := by
  simp only [findSimilarCore]
  by_cases h1 : (title = "" || jsTrim title = "") = true
  · rw [if_pos h1, if_pos h1]
  rw [if_neg h1, if_neg h1]
  by_cases h2 : (!pe) = true
  · rw [if_pos h2, if_pos h2]
  rw [if_neg h2, if_neg h2]
  by_cases hlen : (extractSignificantWords (strTake 50 (slugifyProjectName title))).length < 2
  · rw [if_pos hlen, if_pos hlen]
    rw [find?_perm_of_unique _ hperm (fun b hb c hc hpb hpc =>
      hinj b hb c hc (stripMd_inj (goodScanFile_props (hgood b hb)).1
        (goodScanFile_props (hgood c hc)).1
        ((beq_iff_eq.mp hpb).trans (beq_iff_eq.mp hpc).symm)))]
  · rw [if_neg hlen, if_neg hlen]
    rcases hnot3 with h | h
    · exact absurd h hlen
    · have hbp : bestPass (extractSignificantWords (strTake 50 (slugifyProjectName title)))
          (clampThreshold threshold) pp pairs₁ =
          bestPass (extractSignificantWords (strTake 50 (slugifyProjectName title)))
          (clampThreshold threshold) pp pairs₂ :=
        bestPass_perm_core _ _ _ hperm hgood hinj (none, Frac.zero) (by decide)
      obtain ⟨m, hm⟩ := Option.ne_none_iff_exists'.mp h
      have hm2 : (bestPass (extractSignificantWords (strTake 50 (slugifyProjectName title)))
          (clampThreshold threshold) pp pairs₂).1 = some m := by
        rw [← hbp]
        exact hm
      rw [hm, hm2]

theorem findCore_flatMap_perm (aliasesOf : String → List String) (pe : Bool)
    (pp title : String) (threshold : Frac)
    (f₁ f₂ : String → List String)
    (hperm : ∀ c, (f₁ c).Perm (f₂ c))
    (hgood : ∀ c, ∀ f ∈ f₁ c, goodScanFile f = true)
    (hnot3 : (extractSignificantWords (strTake 50 (slugifyProjectName title))).length < 2 ∨
      (bestPass (extractSignificantWords (strTake 50 (slugifyProjectName title)))
        (clampThreshold threshold) pp
        (CATEGORIES.flatMap (fun c => (f₁ c).map (fun f => (c, f))))).1 ≠ none) :
    findSimilarCore aliasesOf pe pp title threshold
      (CATEGORIES.flatMap (fun c => (f₁ c).map (fun f => (c, f)))) =
    findSimilarCore aliasesOf pe pp title threshold
      (CATEGORIES.flatMap (fun c => (f₂ c).map (fun f => (c, f)))) := by
  simp only [findSimilarCore]
  by_cases h1 : (title = "" || jsTrim title = "") = true
  · rw [if_pos h1, if_pos h1]
  rw [if_neg h1, if_neg h1]
  by_cases h2 : (!pe) = true
  · rw [if_pos h2, if_pos h2]
  rw [if_neg h2, if_neg h2]
  by_cases hlen : (extractSignificantWords (strTake 50 (slugifyProjectName title))).length < 2
  · rw [if_pos hlen, if_pos hlen]
    rw [find?_flatMap_perm _ f₁ f₂ hperm (fun c p hp q hq hpp hpq => by
      obtain ⟨fp, hfp, rfl⟩ := List.mem_map.mp hp
      obtain ⟨fq, hfq, rfl⟩ := List.mem_map.mp hq
      exact congrArg (fun f => (c, f)) (stripMd_inj
        (goodScanFile_props (hgood c fp hfp)).1
        (goodScanFile_props (hgood c fq hfq)).1
        ((beq_iff_eq.mp hpp).trans (beq_iff_eq.mp hpq).symm)) ) CATEGORIES]
  · rw [if_neg hlen, if_neg hlen]
    rcases hnot3 with h | h
    · exact absurd h hlen
    · have hbp : bestPass (extractSignificantWords (strTake 50 (slugifyProjectName title)))
          (clampThreshold threshold) pp
          (CATEGORIES.flatMap (fun c => (f₁ c).map (fun f => (c, f)))) =
          bestPass (extractSignificantWords (strTake 50 (slugifyProjectName title)))
          (clampThreshold threshold) pp
          (CATEGORIES.flatMap (fun c => (f₂ c).map (fun f => (c, f)))) :=
        bestPass_flatMap _ _ _ f₁ f₂ hperm hgood CATEGORIES (none, Frac.zero) (by decide)
      obtain ⟨m, hm⟩ := Option.ne_none_iff_exists'.mp h
      have hm2 : (bestPass (extractSignificantWords (strTake 50 (slugifyProjectName title)))
          (clampThreshold threshold) pp
          (CATEGORIES.flatMap (fun c => (f₂ c).map (fun f => (c, f))))).1 = some m := by
        rw [← hbp]
        exact hm
      rw [hm, hm2]

/-- C2 (amended): the tiered matcher is order-independent whenever the
result is produced by the exact-slug scan (fewer than two significant
input tokens) or by the above-threshold Jaccard pass: for any two
enumeration orders of the same candidate files — well-formed scan
entries, i.e. markdown filenames without path separators — both
findSimilarTopicInCategory and findSimilarTopicAcrossCategories (the
latter under per-category reordering) return identical results.  When
the match instead comes from the tier-3 gray-zone alias pass the result
can depend on enumeration order, because the stable sort of gray-zone
candidates does not break ties between equal tier-2 scores: see the
counterexample. -/
theorem spec_C2_order_determinism (aliasesOf : String → List String) (pe : Bool)
    (pp title : String) (threshold : Frac) :
    (∀ (category : String) (files₁ files₂ : List String),
      files₁.Perm files₂ → (∀ f ∈ files₁, goodScanFile f = true) →
      ((extractSignificantWords (strTake 50 (slugifyProjectName title))).length < 2 ∨
        (bestPass (extractSignificantWords (strTake 50 (slugifyProjectName title)))
          (clampThreshold threshold) pp (files₁.map (fun f => (category, f)))).1 ≠ none) →
      findSimilarTopicInCategory aliasesOf pe pp category title threshold files₁ =
      findSimilarTopicInCategory aliasesOf pe pp category title threshold files₂) ∧
    (∀ (f₁ f₂ : String → List String),
      (∀ c, (f₁ c).Perm (f₂ c)) → (∀ c, ∀ f ∈ f₁ c, goodScanFile f = true) →
      ((extractSignificantWords (strTake 50 (slugifyProjectName title))).length < 2 ∨
        (bestPass (extractSignificantWords (strTake 50 (slugifyProjectName title)))
          (clampThreshold threshold) pp
          (CATEGORIES.flatMap (fun c => (f₁ c).map (fun f => (c, f))))).1 ≠ none) →
      findSimilarTopicAcrossCategories aliasesOf pe pp title threshold f₁ =
      findSimilarTopicAcrossCategories aliasesOf pe pp title threshold f₂) := by
  constructor
  · intro category files₁ files₂ hperm hgood hnot3
    exact findCore_perm aliasesOf pe pp title threshold (hperm.map _)
      (fun p hp => by
        obtain ⟨f, hf, rfl⟩ := List.mem_map.mp hp
        exact hgood f hf)
      (fun p hp q hq he => by
        obtain ⟨fp, hfp, rfl⟩ := List.mem_map.mp hp
        obtain ⟨fq, hfq, rfl⟩ := List.mem_map.mp hq
        exact congrArg (fun f => (category, f)) he)
      hnot3
  · intro f₁ f₂ hperm hgood hnot3
    exact findCore_flatMap_perm aliasesOf pe pp title threshold f₁ f₂ hperm hgood hnot3

theorem spec_C2_order_determinism_witness :
    ["beta.md", "authentication-bug.md"].Perm ["authentication-bug.md", "beta.md"] ∧
    (∀ f ∈ ["beta.md", "authentication-bug.md"], goodScanFile f = true) ∧
    findSimilarTopicInCategory (fun _ => []) true "p" "errors" "Authentication Bug"
      ⟨6, 10⟩ ["beta.md", "authentication-bug.md"] =
    findSimilarTopicInCategory (fun _ => []) true "p" "errors" "Authentication Bug"
      ⟨6, 10⟩ ["authentication-bug.md", "beta.md"] ∧
    findSimilarTopicAcrossCategories (fun _ => []) true "p" "Authentication Bug" ⟨6, 10⟩
      (fun c => if c = "errors" then ["beta.md", "authentication-bug.md"] else []) =
    findSimilarTopicAcrossCategories (fun _ => []) true "p" "Authentication Bug" ⟨6, 10⟩
      (fun c => if c = "errors" then ["authentication-bug.md", "beta.md"] else []) :=
  ⟨by decide, by decide,
    (spec_C2_order_determinism (fun _ => []) true "p" "Authentication Bug" ⟨6, 10⟩).1
      "errors" ["beta.md", "authentication-bug.md"] ["authentication-bug.md", "beta.md"]
      (by decide) (by decide) (Or.inr (by decide)),
    (spec_C2_order_determinism (fun _ => []) true "p" "Authentication Bug" ⟨6, 10⟩).2
      (fun c => if c = "errors" then ["beta.md", "authentication-bug.md"] else [])
      (fun c => if c = "errors" then ["authentication-bug.md", "beta.md"] else [])
      (fun c => by
        by_cases h : c = "errors"
        · simp only [if_pos h]
          decide
        · simp only [if_neg h]
          exact List.Perm.refl _)
      (fun c f hf => by
        by_cases h : c = "errors"
        · simp only [if_pos h] at hf
          have hall : ∀ g ∈ ["beta.md", "authentication-bug.md"],
              goodScanFile g = true := by decide
          exact hall f hf
        · simp only [if_neg h] at hf
          exact absurd hf (List.not_mem_nil f))
      (Or.inr (by decide))⟩

/-- Counterexample to C2 as stated: with title Alpha Beta (two
significant tokens), threshold 0.6, no above-threshold candidate, and
two gray-zone candidates alpha-x.md and alpha-y.md that tie at tier-2
score one third, an alias ledger giving every note the alias
alpha beta lets both pass tier 3 — and the result follows the
enumeration order, so the two orderings of the same candidate set give
different paths. -/
theorem spec_C2_counterexample :
    ["alpha-x.md", "alpha-y.md"].Perm ["alpha-y.md", "alpha-x.md"] ∧
    (∀ f ∈ ["alpha-x.md", "alpha-y.md"], goodScanFile f = true) ∧
    findSimilarTopicInCategory (fun _ => ["alpha beta"]) true "p" "errors" "Alpha Beta"
      ⟨6, 10⟩ ["alpha-x.md", "alpha-y.md"] ≠
    findSimilarTopicInCategory (fun _ => ["alpha beta"]) true "p" "errors" "Alpha Beta"
      ⟨6, 10⟩ ["alpha-y.md", "alpha-x.md"] :=
  ⟨by decide, by decide, by decide⟩
